import Mathlib

/-!
# Verification of the umlauts crate's in-place byte-buffer operations

This file embeds `impl UmlautsInplaceExt for [u8]` from `src/lib.rs` and
proves the specification claims about it.

Buffers are lists of byte values (`List Nat`).  Rust `usize` arithmetic
matters in the loop guards: every loop in the source iterates
`while i < self.len() - 1`, and for `len = 0` the subtraction `self.len() - 1`
overflows `usize`.  In the debug profile that aborts immediately; in the
release profile it wraps to `2^64 - 1` and the subsequent indexing or slicing
operation aborts with a bounds-check panic.  Both profiles therefore abort,
which the embedding models as the `.fail` outcome (wrapping subtraction
`wsub1` followed by explicit bounds checks, i.e. release-profile order).

A run of an operation yields
- `.ok out`   : normal completion, final buffer contents `out`;
- `.fail`     : a Rust panic (arithmetic overflow / bounds-check abort);
- `.outOfFuel`: the iteration budget was exhausted.  The loops of the four
  case-folding / single-pass operations always advance, and the canonical
  budgets chosen below are proved sufficient for them; the budget only shows
  through for `make_utf8_umlauts_to_ascii`, whose `memchr` restarts from the
  buffer start and which genuinely loops forever on some inputs -- proved
  below for every budget.
-/

namespace Umlauts

/-! ## Embedded definitions -/

/-- Number of `usize` values on a 64-bit target (2^64). -/
def USIZE : Nat := 18446744073709551616

/-- Wrapping `n - 1` on `usize`: release-profile value of `self.len() - 1`.
A slice length is a `usize`, so `n < USIZE`; on that domain this equals
`(n + (USIZE - 1)) % USIZE`. -/
def wsub1 (n : Nat) : Nat := if n = 0 then USIZE - 1 else n - 1

/-- `u8::to_ascii_lowercase` / `make_ascii_lowercase` on a byte value. -/
def toLowerB (c : Nat) : Nat := if 65 ≤ c ∧ c ≤ 90 then c + 32 else c

/-- `u8::to_ascii_uppercase` / `make_ascii_uppercase` on a byte value. -/
def toUpperB (c : Nat) : Nat := if 97 ≤ c ∧ c ≤ 122 then c - 32 else c

/-- Outcome of running one of the in-place operations. -/
inductive RunResult where
  | ok (out : List Nat) : RunResult
  | fail : RunResult
  | outOfFuel : RunResult
deriving DecidableEq

/-- Sequencing: run `f` on the buffer a successful first run produced. -/
def RunResult.bind (r : RunResult) (f : List Nat → RunResult) : RunResult :=
  match r with
  | .ok l => f l
  | r => r

/-- `if let Some(c) = self.last_mut() { ... }`: apply `f` to the last byte. -/
def mapLast (f : Nat → Nat) : List Nat → List Nat
  | [] => []
  | [c] => [f c]
  | c :: c1 :: rest => c :: mapLast f (c1 :: rest)

/-- What one iteration of a single-pass loop does at position `i`:
write one byte at `i`, write one byte at `i+1`, write both, or write
nothing; and advance `i` by 1, or by 2 (`skip2`, used only by the combined
transliteration loops' unrecognised-continuation branch). -/
inductive Act where
  | w1 (v : Nat) : Act
  | wt (v : Nat) : Act
  | wPair (a b : Nat) : Act
  | skip1 : Act
  | skip2 : Act
deriving DecidableEq

/-- The shared single-pass loop shape of the four non-`memchr` operations:
`while i < self.len() - 1 { match (self[i], self[i+1]) { ... }; i += step }`.
Bounds are checked exactly where the Rust indexing is. -/
def scanLoop (step : Nat → Nat → Act) : Nat → List Nat → Nat → RunResult
  | 0, _, _ => .outOfFuel
  | fuel + 1, s, i =>
    if i < wsub1 s.length then
      if i + 1 < s.length then
        match step (s.getD i 0) (s.getD (i + 1) 0) with
        | .w1 v => scanLoop step fuel (s.set i v) (i + 1)
        | .wt v => scanLoop step fuel (s.set (i + 1) v) (i + 1)
        | .wPair a b => scanLoop step fuel ((s.set i a).set (i + 1) b) (i + 1)
        | .skip1 => scanLoop step fuel s (i + 1)
        | .skip2 => scanLoop step fuel s (i + 2)
      else .fail
    else .ok s

/-- Loop body of `make_utf8_umlauts_lowercase` (the `match (c, self[i+1])`). -/
def lowerStep (c c1 : Nat) : Act :=
  if 65 ≤ c ∧ c ≤ 90 then .w1 (c + 32)
  else if c = 0xc3 ∧ c1 = 0x84 then .wt 0xa4
  else if c = 0xc3 ∧ c1 = 0x96 then .wt 0xb6
  else if c = 0xc3 ∧ c1 = 0x9c then .wt 0xbc
  else .skip1

/-- Loop body of `make_utf8_umlauts_uppercase`. -/
def upperStep (c c1 : Nat) : Act :=
  if 97 ≤ c ∧ c ≤ 122 then .w1 (c - 32)
  else if c = 0xc3 ∧ c1 = 0xa4 then .wt 0x84
  else if c = 0xc3 ∧ c1 = 0xb6 then .wt 0x96
  else if c = 0xc3 ∧ c1 = 0xbc then .wt 0x9c
  else .skip1

/-- Replacement table of `make_utf8_umlauts_to_lowercase_ascii`. -/
def lowerRepl (t : Nat) : Option (Nat × Nat) :=
  if t = 0xa4 then some (97, 101)
  else if t = 0xb6 then some (111, 101)
  else if t = 0xbc then some (117, 101)
  else if t = 0x84 then some (97, 101)
  else if t = 0x96 then some (111, 101)
  else if t = 0x9c then some (117, 101)
  else if t = 0x9f then some (115, 115)
  else none

/-- Replacement table of `make_utf8_umlauts_to_uppercase_ascii`. -/
def upperRepl (t : Nat) : Option (Nat × Nat) :=
  if t = 0xa4 then some (65, 69)
  else if t = 0xb6 then some (79, 69)
  else if t = 0xbc then some (85, 69)
  else if t = 0x84 then some (65, 69)
  else if t = 0x96 then some (79, 69)
  else if t = 0x9c then some (85, 69)
  else if t = 0x9f then some (83, 83)
  else none

/-- Loop body of `make_utf8_umlauts_to_lowercase_ascii`. -/
def lowerAsciiStep (c c1 : Nat) : Act :=
  if c = 0xc3 then
    match lowerRepl c1 with
    | some p => .wPair p.1 p.2
    | none => .skip2
  else .w1 (toLowerB c)

/-- Loop body of `make_utf8_umlauts_to_uppercase_ascii`. -/
def upperAsciiStep (c c1 : Nat) : Act :=
  if c = 0xc3 then
    match upperRepl c1 with
    | some p => .wPair p.1 p.2
    | none => .skip2
  else .w1 (toUpperB c)

/-- After a successful loop run, apply `f` to the buffer's last byte
(`if let Some(c) = self.last_mut() { ... }`). -/
def finishLast (f : Nat → Nat) (r : RunResult) : RunResult :=
  match r with
  | .ok t => .ok (mapLast f t)
  | r => r

/-- `<[u8]>::make_utf8_umlauts_lowercase` (src/lib.rs:115-134).  The loop
advances by exactly 1 per iteration and runs while `i < len - 1`, so
`len + 1` iterations always cover a terminating run. -/
def make_utf8_umlauts_lowercase (s : List Nat) : RunResult :=
  finishLast toLowerB (scanLoop lowerStep (s.length + 1) s 0)

/-- `<[u8]>::make_utf8_umlauts_uppercase` (src/lib.rs:136-155). -/
def make_utf8_umlauts_uppercase (s : List Nat) : RunResult :=
  finishLast toUpperB (scanLoop upperStep (s.length + 1) s 0)

/-- `<[u8]>::make_utf8_umlauts_to_lowercase_ascii` (src/lib.rs:183-212).
The loop advances by 1 or 2 per iteration, so `len + 1` iterations cover
every run. -/
def make_utf8_umlauts_to_lowercase_ascii (s : List Nat) : RunResult :=
  finishLast toLowerB (scanLoop lowerAsciiStep (s.length + 1) s 0)

/-- `<[u8]>::make_utf8_umlauts_to_uppercase_ascii` (src/lib.rs:214-243). -/
def make_utf8_umlauts_to_uppercase_ascii (s : List Nat) : RunResult :=
  finishLast toUpperB (scanLoop upperAsciiStep (s.length + 1) s 0)

/-- `memchr::memchr`: index of the first occurrence of `b`. -/
def memchrList (b : Nat) : List Nat → Option Nat
  | [] => none
  | c :: rest => if c = b then some 0 else (memchrList b rest).map (· + 1)

/-- Replacement table of `make_utf8_umlauts_to_ascii` (src/lib.rs:161-169). -/
def asciiRepl (t : Nat) : Option (Nat × Nat) :=
  if t = 0xa4 then some (97, 101)
  else if t = 0xb6 then some (111, 101)
  else if t = 0xbc then some (117, 101)
  else if t = 0x84 then some (65, 101)
  else if t = 0x96 then some (79, 101)
  else if t = 0x9c then some (85, 101)
  else if t = 0x9f then some (115, 115)
  else none

/-- Loop of `make_utf8_umlauts_to_ascii` (src/lib.rs:157-181).  Note the
source searches `&self[..self.len() - 1]` from the start of the buffer on
every iteration (not from `i`); `i` is only used in the loop guard.  The
slice construction `&self[..k]` aborts when `k > len`, modeled by the
`wsub1 s.length ≤ s.length` check. -/
def toAsciiLoop : Nat → List Nat → Nat → RunResult
  | 0, _, _ => .outOfFuel
  | fuel + 1, s, i =>
    if i < wsub1 s.length then
      if wsub1 s.length ≤ s.length then
        match memchrList 0xc3 (s.take (wsub1 s.length)) with
        | some next_i =>
          if next_i + 1 < s.length then
            match asciiRepl (s.getD (next_i + 1) 0) with
            | some p => toAsciiLoop fuel ((s.set next_i p.1).set (next_i + 1) p.2) (next_i + 1)
            | none => toAsciiLoop fuel s (next_i + 2)
          else .fail
        | none => .ok s
      else .fail
    else .ok s

/-- `<[u8]>::make_utf8_umlauts_to_ascii` (src/lib.rs:157-181).  A terminating
run replaces at most one `0xc3` per iteration (each replacement erases the
leftmost remaining `0xc3`) and performs at most one non-replacing iteration
before exiting, so `len + 2` iterations cover every terminating run;
`.outOfFuel` under this budget coincides with genuine divergence. -/
def make_utf8_umlauts_to_ascii (s : List Nat) : RunResult :=
  toAsciiLoop (s.length + 2) s 0

/-- The crate's test buffer `"ÄÖÜäöüABCDabcd"`. -/
def testBuf : List Nat :=
  [0xc3, 0x84, 0xc3, 0x96, 0xc3, 0x9c, 0xc3, 0xa4, 0xc3, 0xb6, 0xc3, 0xbc,
   65, 66, 67, 68, 97, 98, 99, 100]

/-- `"äöüäöüabcdabcd"`. -/
def testLower : List Nat :=
  [0xc3, 0xa4, 0xc3, 0xb6, 0xc3, 0xbc, 0xc3, 0xa4, 0xc3, 0xb6, 0xc3, 0xbc,
   97, 98, 99, 100, 97, 98, 99, 100]

/-- `"ÄÖÜÄÖÜABCDABCD"`. -/
def testUpper : List Nat :=
  [0xc3, 0x84, 0xc3, 0x96, 0xc3, 0x9c, 0xc3, 0x84, 0xc3, 0x96, 0xc3, 0x9c,
   65, 66, 67, 68, 65, 66, 67, 68]

/-- `"AeOeUeaeoeueABCDabcd"`. -/
def testAscii : List Nat :=
  [65, 101, 79, 101, 85, 101, 97, 101, 111, 101, 117, 101,
   65, 66, 67, 68, 97, 98, 99, 100]

/-- `"aeoeueaeoeueabcdabcd"`. -/
def testLowerAscii : List Nat :=
  [97, 101, 111, 101, 117, 101, 97, 101, 111, 101, 117, 101,
   97, 98, 99, 100, 97, 98, 99, 100]

/-- `"AEOEUEAEOEUEABCDABCD"`. -/
def testUpperAscii : List Nat :=
  [65, 69, 79, 69, 85, 69, 65, 69, 79, 69, 85, 69,
   65, 66, 67, 68, 65, 66, 67, 68]

def scanCore (step : Nat → Nat → Act) : List Nat → List Nat
  | [] => []
  | [c] => [c]
  | c :: c1 :: rest =>
    match step c c1 with
    | .w1 v => v :: scanCore step (c1 :: rest)
    | .wt v => c :: scanCore step (v :: rest)
    | .wPair a b => a :: scanCore step (b :: rest)
    | .skip1 => c :: scanCore step (c1 :: rest)
    | .skip2 => c :: c1 :: scanCore step rest
termination_by l => l.length
decreasing_by all_goals (simp only [List.length_cons]; omega)

/-- The lowercase fold as described: `A`-`Z` get `+32`; a pair
`0xc3 0x84/0x96/0x9c` gets its trailing byte moved to `0xa4/0xb6/0xbc`;
every other byte is untouched; the final byte (when not the trailing byte
of a just-rewritten pair) is ASCII-lowercased. -/
def lowercaseSpec : List Nat → List Nat
  | [] => []
  | [c] => [toLowerB c]
  | c :: t :: rest =>
    if 65 ≤ c ∧ c ≤ 90 then (c + 32) :: lowercaseSpec (t :: rest)
    else if c = 0xc3 ∧ (t = 0x84 ∨ t = 0x96 ∨ t = 0x9c) then
      c :: (t + 0x20) :: lowercaseSpec rest
    else c :: lowercaseSpec (t :: rest)

/-- The uppercase fold, mirror of `lowercaseSpec`. -/
def uppercaseSpec : List Nat → List Nat
  | [] => []
  | [c] => [toUpperB c]
  | c :: t :: rest =>
    if 97 ≤ c ∧ c ≤ 122 then (c - 32) :: uppercaseSpec (t :: rest)
    else if c = 0xc3 ∧ (t = 0xa4 ∨ t = 0xb6 ∨ t = 0xbc) then
      c :: (t - 0x20) :: uppercaseSpec rest
    else c :: uppercaseSpec (t :: rest)

def isAsciiB (c : Nat) : Bool := decide (c < 0x80)

def allAscii (l : List Nat) : Bool := l.all isAsciiB

def trailAll : List Nat := [0xa4, 0xb6, 0xbc, 0x84, 0x96, 0x9c, 0x9f]

def trailNoSS : List Nat := [0xa4, 0xb6, 0xbc, 0x84, 0x96, 0x9c]

def validOver (ts : List Nat) : List Nat → Bool
  | [] => true
  | [c] => isAsciiB c
  | c :: t :: r =>
    if c = 0xc3 then decide (t ∈ ts) && validOver ts r
    else isAsciiB c && validOver ts (t :: r)

/-- Valid UTF-8 over ASCII plus ä ö ü Ä Ö Ü ß. -/
def validA (s : List Nat) : Bool := validOver trailAll s

/-- Valid UTF-8 over ASCII plus ä ö ü Ä Ö Ü (no ß). -/
def validNoSS (s : List Nat) : Bool := validOver trailNoSS s

/-- `make_utf8_umlauts_to_lowercase_ascii` as described: each recognised
umlaut pair becomes its lowercase digraph regardless of source case, every
other byte is ASCII-lowercased (the final byte included). -/
def toLowerAsciiSpec : List Nat → List Nat
  | [] => []
  | [c] => [toLowerB c]
  | c :: t :: rest =>
    if c = 0xc3 ∧ (t = 0xa4 ∨ t = 0x84) then 97 :: 101 :: toLowerAsciiSpec rest
    else if c = 0xc3 ∧ (t = 0xb6 ∨ t = 0x96) then 111 :: 101 :: toLowerAsciiSpec rest
    else if c = 0xc3 ∧ (t = 0xbc ∨ t = 0x9c) then 117 :: 101 :: toLowerAsciiSpec rest
    else if c = 0xc3 ∧ t = 0x9f then 115 :: 115 :: toLowerAsciiSpec rest
    else toLowerB c :: toLowerAsciiSpec (t :: rest)

/-- `make_utf8_umlauts_to_uppercase_ascii` as described (mirror). -/
def toUpperAsciiSpec : List Nat → List Nat
  | [] => []
  | [c] => [toUpperB c]
  | c :: t :: rest =>
    if c = 0xc3 ∧ (t = 0xa4 ∨ t = 0x84) then 65 :: 69 :: toUpperAsciiSpec rest
    else if c = 0xc3 ∧ (t = 0xb6 ∨ t = 0x96) then 79 :: 69 :: toUpperAsciiSpec rest
    else if c = 0xc3 ∧ (t = 0xbc ∨ t = 0x9c) then 85 :: 69 :: toUpperAsciiSpec rest
    else if c = 0xc3 ∧ t = 0x9f then 83 :: 83 :: toUpperAsciiSpec rest
    else toUpperB c :: toUpperAsciiSpec (t :: rest)

/-- `make_utf8_umlauts_to_ascii` as described: every recognised pair becomes
its case-preserving digraph (ss for ß), every other byte is untouched. -/
def toAsciiSpec : List Nat → List Nat
  | [] => []
  | [c] => [c]
  | c :: t :: rest =>
    if c = 0xc3 then
      if t = 0xa4 then 97 :: 101 :: toAsciiSpec rest
      else if t = 0xb6 then 111 :: 101 :: toAsciiSpec rest
      else if t = 0xbc then 117 :: 101 :: toAsciiSpec rest
      else if t = 0x84 then 65 :: 101 :: toAsciiSpec rest
      else if t = 0x96 then 79 :: 101 :: toAsciiSpec rest
      else if t = 0x9c then 85 :: 101 :: toAsciiSpec rest
      else if t = 0x9f then 115 :: 115 :: toAsciiSpec rest
      else c :: t :: toAsciiSpec rest
    else c :: toAsciiSpec (t :: rest)

/-- Count of `0xc3` bytes. -/
def countC3 : List Nat → Nat
  | [] => 0
  | c :: r => (if c = 0xc3 then 1 else 0) + countC3 r

def lowerFixed : List Nat → Bool
  | [] => true
  | [c] => !(decide (65 ≤ c ∧ c ≤ 90))
  | c :: t :: rest =>
    !(decide (65 ≤ c ∧ c ≤ 90)) &&
    !(decide (c = 0xc3 ∧ (t = 0x84 ∨ t = 0x96 ∨ t = 0x9c))) &&
    lowerFixed (t :: rest)

def upperFixed : List Nat → Bool
  | [] => true
  | [c] => !(decide (97 ≤ c ∧ c ≤ 122))
  | c :: t :: rest =>
    !(decide (97 ≤ c ∧ c ≤ 122)) &&
    !(decide (c = 0xc3 ∧ (t = 0xa4 ∨ t = 0xb6 ∨ t = 0xbc))) &&
    upperFixed (t :: rest)

/-- UTF-8 continuation byte. -/
def isCont (b : Nat) : Bool := decide (0x80 ≤ b) && decide (b ≤ 0xbf)

/-- Full UTF-8 validity of a byte sequence (RFC 3629 byte ranges, overlong
and surrogate encodings rejected). -/
def validUtf8 (s : List Nat) : Bool :=
  match s with
  | [] => true
  | b :: rest =>
    if b ≤ 0x7f then validUtf8 rest
    else
      match rest with
      | [] => false
      | b1 :: r1 =>
        if 0xc2 ≤ b ∧ b ≤ 0xdf then isCont b1 && validUtf8 r1
        else
          match r1 with
          | [] => false
          | b2 :: r2 =>
            if b = 0xe0 then
              decide (0xa0 ≤ b1) && decide (b1 ≤ 0xbf) && isCont b2 &&
                validUtf8 r2
            else if b = 0xed then
              decide (0x80 ≤ b1) && decide (b1 ≤ 0x9f) && isCont b2 &&
                validUtf8 r2
            else if 0xe1 ≤ b ∧ b ≤ 0xef then
              isCont b1 && isCont b2 && validUtf8 r2
            else
              match r2 with
              | [] => false
              | b3 :: r3 =>
                if b = 0xf0 then
                  decide (0x90 ≤ b1) && decide (b1 ≤ 0xbf) && isCont b2 &&
                    isCont b3 && validUtf8 r3
                else if b = 0xf4 then
                  decide (0x80 ≤ b1) && decide (b1 ≤ 0x8f) && isCont b2 &&
                    isCont b3 && validUtf8 r3
                else if 0xf1 ≤ b ∧ b ≤ 0xf3 then
                  isCont b1 && isCont b2 && isCont b3 && validUtf8 r3
                else false

/-! ## Theorems -/

theorem wsub1_of_pos {n : Nat} (h1 : 1 ≤ n) (_h2 : n ≤ USIZE) : wsub1 n = n - 1 := by
  unfold wsub1
  rw [if_neg (by omega)]

theorem wsub1_zero : wsub1 0 = USIZE - 1 := by decide

theorem getD_append_len (p : List Nat) (c : Nat) (r : List Nat) :
    (p ++ c :: r).getD p.length 0 = c := by
  induction p with
  | nil => rfl
  | cons a p ih => simpa using ih

theorem getD_append_len1 (p : List Nat) (c c1 : Nat) (r : List Nat) :
    (p ++ c :: c1 :: r).getD (p.length + 1) 0 = c1 := by
  have h := getD_append_len (p ++ [c]) c1 r
  simpa using h

theorem set_append_len (p : List Nat) (c v : Nat) (r : List Nat) :
    (p ++ c :: r).set p.length v = p ++ v :: r := by
  induction p with
  | nil => rfl
  | cons a p ih => simp [ih]

theorem set_append_len1 (p : List Nat) (c c1 v : Nat) (r : List Nat) :
    (p ++ c :: c1 :: r).set (p.length + 1) v = p ++ c :: v :: r := by
  have h := set_append_len (p ++ [c]) c1 v r
  simp only [List.append_assoc, List.cons_append, List.nil_append,
    List.length_append, List.length_cons, List.length_nil] at h
  exact h

theorem scanCore_length (step : Nat → Nat → Act) (s : List Nat) :
    (scanCore step s).length = s.length := by
  induction s using scanCore.induct step
  all_goals (simp_all [scanCore]; try omega)

/-- The single-pass loop, started at index `p.length` over buffer `p ++ s`,
completes and transforms the suffix `s` into `scanCore step s`. -/
theorem scanLoop_append (step : Nat → Nat → Act) :
    ∀ (fuel : Nat) (s p : List Nat),
      s.length + 1 ≤ fuel → 1 ≤ p.length + s.length → p.length + s.length ≤ USIZE →
      scanLoop step fuel (p ++ s) p.length = .ok (p ++ scanCore step s) := by
  intro fuel
  induction fuel with
  | zero => intro s p hf _ _; omega
  | succ fuel ih =>
    intro s p hf hne hus
    match s with
    | [] =>
      have h1 : 1 ≤ p.length := by simp at hne; omega
      have h2 : p.length ≤ USIZE := by simp at hus; omega
      have hw : wsub1 (p ++ ([] : List Nat)).length = p.length - 1 := by
        rw [show (p ++ ([] : List Nat)).length = p.length by simp,
            wsub1_of_pos h1 h2]
      simp only [scanLoop, hw]
      rw [if_neg (by omega)]
      simp [scanCore]
    | [c] =>
      have h2 : p.length + 1 ≤ USIZE := by simp at hus; omega
      have hw : wsub1 (p ++ [c]).length = p.length := by
        rw [show (p ++ [c]).length = p.length + 1 by simp,
            wsub1_of_pos (by omega) h2]
        omega
      simp only [scanLoop, hw]
      rw [if_neg (by omega)]
      simp [scanCore]
    | c :: c1 :: rest =>
      have hfs : rest.length + 2 ≤ fuel := by simp at hf; omega
      have hus2 : p.length + (rest.length + 2) ≤ USIZE := by simp at hus; omega
      have hL : (p ++ c :: c1 :: rest).length = p.length + (rest.length + 2) := by
        simp
      have hw : wsub1 (p ++ c :: c1 :: rest).length = p.length + rest.length + 1 := by
        rw [hL, wsub1_of_pos (by omega) hus2]
        omega
      have hg : p.length < wsub1 (p ++ c :: c1 :: rest).length := by
        rw [hw]; omega
      have hb : p.length + 1 < (p ++ c :: c1 :: rest).length := by rw [hL]; omega
      simp only [scanLoop, if_pos hg, if_pos hb, getD_append_len, getD_append_len1]
      split
      next v hstep =>
        rw [set_append_len]
        have h2 : (p ++ v :: c1 :: rest) = (p ++ [v]) ++ (c1 :: rest) := by simp
        have h3 := ih (c1 :: rest) (p ++ [v])
          (by simp only [List.length_cons]; omega)
          (by simp only [List.length_append, List.length_cons, List.length_nil]; omega)
          (by simp only [List.length_append, List.length_cons, List.length_nil]; omega)
        rw [h2, show p.length + 1 = (p ++ [v]).length by simp, h3]
        simp [scanCore, hstep]
      next v hstep =>
        rw [set_append_len1]
        have h2 : (p ++ c :: v :: rest) = (p ++ [c]) ++ (v :: rest) := by simp
        have h3 := ih (v :: rest) (p ++ [c])
          (by simp only [List.length_cons]; omega)
          (by simp only [List.length_append, List.length_cons, List.length_nil]; omega)
          (by simp only [List.length_append, List.length_cons, List.length_nil]; omega)
        rw [h2, show p.length + 1 = (p ++ [c]).length by simp, h3]
        simp [scanCore, hstep]
      next a b hstep =>
        rw [set_append_len, set_append_len1]
        have h2 : (p ++ a :: b :: rest) = (p ++ [a]) ++ (b :: rest) := by simp
        have h3 := ih (b :: rest) (p ++ [a])
          (by simp only [List.length_cons]; omega)
          (by simp only [List.length_append, List.length_cons, List.length_nil]; omega)
          (by simp only [List.length_append, List.length_cons, List.length_nil]; omega)
        rw [h2, show p.length + 1 = (p ++ [a]).length by simp, h3]
        simp [scanCore, hstep]
      next hstep =>
        have h2 : (p ++ c :: c1 :: rest) = (p ++ [c]) ++ (c1 :: rest) := by simp
        have h3 := ih (c1 :: rest) (p ++ [c])
          (by simp only [List.length_cons]; omega)
          (by simp only [List.length_append, List.length_cons, List.length_nil]; omega)
          (by simp only [List.length_append, List.length_cons, List.length_nil]; omega)
        rw [h2, show p.length + 1 = (p ++ [c]).length by simp, h3]
        simp [scanCore, hstep]
      next hstep =>
        have h2 : (p ++ c :: c1 :: rest) = (p ++ [c, c1]) ++ rest := by simp
        have h3 := ih rest (p ++ [c, c1])
          (by omega)
          (by simp only [List.length_append, List.length_cons, List.length_nil]; omega)
          (by simp only [List.length_append, List.length_cons, List.length_nil]; omega)
        rw [h2, show p.length + 2 = (p ++ [c, c1]).length by simp, h3]
        simp [scanCore, hstep]

example : make_utf8_umlauts_lowercase testBuf = .ok testLower := by decide

example : make_utf8_umlauts_uppercase testLower = .ok testUpper := by decide

example : make_utf8_umlauts_to_ascii testBuf = .ok testAscii := by decide

example : make_utf8_umlauts_to_lowercase_ascii testBuf = .ok testLowerAscii := by decide

example : make_utf8_umlauts_to_uppercase_ascii testBuf = .ok testUpperAscii := by decide

example : make_utf8_umlauts_to_ascii [0xc3, 0x9f] = .ok [115, 115] := by decide

example : make_utf8_umlauts_uppercase [97] = .ok [65] := by decide

example : make_utf8_umlauts_lowercase [] = .fail := by decide

example : make_utf8_umlauts_to_ascii [] = .fail := by decide

example : make_utf8_umlauts_to_ascii [0xc3, 0x28, 65, 65] = .outOfFuel := by decide

theorem mapLast_length (f : Nat → Nat) (s : List Nat) :
    (mapLast f s).length = s.length := by
  induction s using mapLast.induct f
  all_goals simp_all [mapLast]

theorem scanCore_ne_nil (step : Nat → Nat → Act) {s : List Nat} (h : s ≠ []) :
    scanCore step s ≠ [] := by
  have h1 : 0 < s.length := List.length_pos.mpr h
  have h2 := scanCore_length step s
  intro hc
  rw [hc] at h2
  simp at h2
  omega

theorem mapLast_cons (f : Nat → Nat) (c : Nat) {l : List Nat} (h : l ≠ []) :
    mapLast f (c :: l) = c :: mapLast f l := by
  match l with
  | [] => exact absurd rfl h
  | c1 :: rest => rfl

/-- `lowercaseSpec` lets an inert head byte (not an uppercase letter, not
`0xc3`) pass through unchanged. -/
theorem lowercaseSpec_inert {v : Nat} (h1 : ¬(65 ≤ v ∧ v ≤ 90)) (h2 : v ≠ 0xc3)
    (rest : List Nat) : lowercaseSpec (v :: rest) = v :: lowercaseSpec rest := by
  match rest with
  | [] => simp [lowercaseSpec, toLowerB, h1]
  | y :: r => simp [lowercaseSpec, h1, h2]

theorem uppercaseSpec_inert {v : Nat} (h1 : ¬(97 ≤ v ∧ v ≤ 122)) (h2 : v ≠ 0xc3)
    (rest : List Nat) : uppercaseSpec (v :: rest) = v :: uppercaseSpec rest := by
  match rest with
  | [] => simp [uppercaseSpec, toUpperB, h1]
  | y :: r => simp [uppercaseSpec, h1, h2]

/-- The run of the lowercase loop followed by the final-byte fixup is
exactly `lowercaseSpec`. -/
theorem mapLast_scanCore_lower : ∀ (n : Nat) (s : List Nat), s.length ≤ n →
    mapLast toLowerB (scanCore lowerStep s) = lowercaseSpec s := by
  intro n
  induction n with
  | zero =>
    intro s h
    match s with
    | [] => simp [scanCore, mapLast, lowercaseSpec]
    | c :: r => simp at h
  | succ n ih =>
    intro s h
    match s with
    | [] => simp [scanCore, mapLast, lowercaseSpec]
    | [c] => simp [scanCore, mapLast, lowercaseSpec]
    | c :: t :: rest =>
      have hlen : (t :: rest).length ≤ n := by simp at h ⊢; omega
      by_cases h1 : 65 ≤ c ∧ c ≤ 90
      · have hcore : scanCore lowerStep (c :: t :: rest) =
            (c + 32) :: scanCore lowerStep (t :: rest) := by
          simp [scanCore, lowerStep, h1]
        rw [hcore, mapLast_cons _ _ (scanCore_ne_nil _ (by simp)), ih _ hlen]
        simp [lowercaseSpec, h1]
      · by_cases h2 : c = 0xc3 ∧ (t = 0x84 ∨ t = 0x96 ∨ t = 0x9c)
        · have hlen2 : ((t + 0x20) :: rest).length ≤ n := by simp at h ⊢; omega
          have hcore : scanCore lowerStep (c :: t :: rest) =
              c :: scanCore lowerStep ((t + 0x20) :: rest) := by
            obtain ⟨hc, ht⟩ := h2
            rcases ht with ht | ht | ht <;>
              simp [scanCore, lowerStep, hc, ht, h1]
          rw [hcore, mapLast_cons _ _ (scanCore_ne_nil _ (by simp)), ih _ hlen2,
            lowercaseSpec_inert (by omega) (by omega)]
          have hs : lowercaseSpec (c :: t :: rest) =
              c :: (t + 0x20) :: lowercaseSpec rest := by
            simp [lowercaseSpec, h1, h2]
          rw [hs]
        · have hn1 : ¬(c = 0xc3 ∧ t = 0x84) := fun hh => h2 ⟨hh.1, Or.inl hh.2⟩
          have hn2 : ¬(c = 0xc3 ∧ t = 0x96) := fun hh => h2 ⟨hh.1, Or.inr (Or.inl hh.2)⟩
          have hn3 : ¬(c = 0xc3 ∧ t = 0x9c) := fun hh => h2 ⟨hh.1, Or.inr (Or.inr hh.2)⟩
          have hstep : lowerStep c t = Act.skip1 := by
            simp [lowerStep, h1, hn1, hn2, hn3]
          have hcore : scanCore lowerStep (c :: t :: rest) =
              c :: scanCore lowerStep (t :: rest) := by
            simp [scanCore, hstep]
          rw [hcore, mapLast_cons _ _ (scanCore_ne_nil _ (by simp)), ih _ hlen]
          simp [lowercaseSpec, h1, h2]

/-- The run of the uppercase loop followed by the final-byte fixup is
exactly `uppercaseSpec`. -/
theorem mapLast_scanCore_upper : ∀ (n : Nat) (s : List Nat), s.length ≤ n →
    mapLast toUpperB (scanCore upperStep s) = uppercaseSpec s := by
  intro n
  induction n with
  | zero =>
    intro s h
    match s with
    | [] => simp [scanCore, mapLast, uppercaseSpec]
    | c :: r => simp at h
  | succ n ih =>
    intro s h
    match s with
    | [] => simp [scanCore, mapLast, uppercaseSpec]
    | [c] => simp [scanCore, mapLast, uppercaseSpec]
    | c :: t :: rest =>
      have hlen : (t :: rest).length ≤ n := by simp at h ⊢; omega
      by_cases h1 : 97 ≤ c ∧ c ≤ 122
      · have hcore : scanCore upperStep (c :: t :: rest) =
            (c - 32) :: scanCore upperStep (t :: rest) := by
          simp [scanCore, upperStep, h1]
        rw [hcore, mapLast_cons _ _ (scanCore_ne_nil _ (by simp)), ih _ hlen]
        simp [uppercaseSpec, h1]
      · by_cases h2 : c = 0xc3 ∧ (t = 0xa4 ∨ t = 0xb6 ∨ t = 0xbc)
        · have hlen2 : ((t - 0x20) :: rest).length ≤ n := by simp at h ⊢; omega
          have hcore : scanCore upperStep (c :: t :: rest) =
              c :: scanCore upperStep ((t - 0x20) :: rest) := by
            obtain ⟨hc, ht⟩ := h2
            rcases ht with ht | ht | ht <;>
              simp [scanCore, upperStep, hc, ht, h1]
          rw [hcore, mapLast_cons _ _ (scanCore_ne_nil _ (by simp)), ih _ hlen2,
            uppercaseSpec_inert (by omega) (by omega)]
          have hs : uppercaseSpec (c :: t :: rest) =
              c :: (t - 0x20) :: uppercaseSpec rest := by
            simp [uppercaseSpec, h1, h2]
          rw [hs]
        · have hn1 : ¬(c = 0xc3 ∧ t = 0xa4) := fun hh => h2 ⟨hh.1, Or.inl hh.2⟩
          have hn2 : ¬(c = 0xc3 ∧ t = 0xb6) := fun hh => h2 ⟨hh.1, Or.inr (Or.inl hh.2)⟩
          have hn3 : ¬(c = 0xc3 ∧ t = 0xbc) := fun hh => h2 ⟨hh.1, Or.inr (Or.inr hh.2)⟩
          have hstep : upperStep c t = Act.skip1 := by
            simp [upperStep, h1, hn1, hn2, hn3]
          have hcore : scanCore upperStep (c :: t :: rest) =
              c :: scanCore upperStep (t :: rest) := by
            simp [scanCore, hstep]
          rw [hcore, mapLast_cons _ _ (scanCore_ne_nil _ (by simp)), ih _ hlen]
          simp [uppercaseSpec, h1, h2]

theorem make_lowercase_eq {s : List Nat} (hne : s ≠ []) (hus : s.length ≤ USIZE) :
    make_utf8_umlauts_lowercase s = .ok (lowercaseSpec s) := by
  have hpos : 0 < s.length := List.length_pos.mpr hne
  have h := scanLoop_append lowerStep (s.length + 1) s [] (by omega)
    (by simp; omega) (by simp; omega)
  simp only [List.nil_append, List.length_nil] at h
  unfold make_utf8_umlauts_lowercase
  rw [h]
  show RunResult.ok (mapLast toLowerB (scanCore lowerStep s)) =
    RunResult.ok (lowercaseSpec s)
  rw [mapLast_scanCore_lower s.length s le_rfl]

theorem make_uppercase_eq {s : List Nat} (hne : s ≠ []) (hus : s.length ≤ USIZE) :
    make_utf8_umlauts_uppercase s = .ok (uppercaseSpec s) := by
  have hpos : 0 < s.length := List.length_pos.mpr hne
  have h := scanLoop_append upperStep (s.length + 1) s [] (by omega)
    (by simp; omega) (by simp; omega)
  simp only [List.nil_append, List.length_nil] at h
  unfold make_utf8_umlauts_uppercase
  rw [h]
  show RunResult.ok (mapLast toUpperB (scanCore upperStep s)) =
    RunResult.ok (uppercaseSpec s)
  rw [mapLast_scanCore_upper s.length s le_rfl]

theorem validOver_cons_ascii {ts : List Nat} {c : Nat} (hc : c < 0x80)
    {rest : List Nat} (h : validOver ts rest = true) :
    validOver ts (c :: rest) = true := by
  have hne : c ≠ 0xc3 := by omega
  match rest with
  | [] => simp [validOver, isAsciiB]; omega
  | t :: r =>
    simp [validOver, isAsciiB, hne, h]
    omega

theorem validOver_pair_dest {ts : List Nat} {t : Nat} {rest : List Nat}
    (hv : validOver ts (0xc3 :: t :: rest) = true) :
    t ∈ ts ∧ validOver ts rest = true := by
  simp [validOver] at hv
  exact hv

theorem validOver_ascii_dest {ts : List Nat} {c : Nat} {rest : List Nat}
    (hc : c ≠ 0xc3) (hv : validOver ts (c :: rest) = true) :
    c < 0x80 ∧ validOver ts rest = true := by
  match rest with
  | [] =>
    simp [validOver, isAsciiB] at hv
    exact ⟨hv, rfl⟩
  | t :: r =>
    simp [validOver, isAsciiB, hc] at hv
    exact hv

example : validA testBuf = true := by decide

example : validNoSS testBuf = true := by decide

example : validA [0xc3, 0x9f] = true := by decide

example : validNoSS [0xc3, 0x9f] = false := by decide

example : validA [0xc3] = false := by decide

theorem toLowerAsciiSpec_inert {v : Nat} (h : v ≠ 0xc3) (rest : List Nat) :
    toLowerAsciiSpec (v :: rest) = toLowerB v :: toLowerAsciiSpec rest := by
  match rest with
  | [] => simp [toLowerAsciiSpec]
  | y :: r => simp [toLowerAsciiSpec, h]

theorem toUpperAsciiSpec_inert {v : Nat} (h : v ≠ 0xc3) (rest : List Nat) :
    toUpperAsciiSpec (v :: rest) = toUpperB v :: toUpperAsciiSpec rest := by
  match rest with
  | [] => simp [toUpperAsciiSpec]
  | y :: r => simp [toUpperAsciiSpec, h]

/-- On valid buffers, the combined lowercase-transliteration loop plus
final-byte fixup is exactly `toLowerAsciiSpec`. -/
theorem mapLast_scanCore_lowerAscii : ∀ (n : Nat) (s : List Nat), s.length ≤ n →
    validA s = true →
    mapLast toLowerB (scanCore lowerAsciiStep s) = toLowerAsciiSpec s := by
  intro n
  induction n with
  | zero =>
    intro s h hv
    match s with
    | [] => simp [scanCore, mapLast, toLowerAsciiSpec]
    | c :: r => simp at h
  | succ n ih =>
    intro s h hv
    match s with
    | [] => simp [scanCore, mapLast, toLowerAsciiSpec]
    | [c] => simp [scanCore, mapLast, toLowerAsciiSpec]
    | c :: t :: rest =>
      by_cases hc : c = 0xc3
      · subst hc
        have ht : t ∈ trailAll ∧ validOver trailAll rest = true :=
          validOver_pair_dest hv
        have htt : t = 0xa4 ∨ t = 0xb6 ∨ t = 0xbc ∨ t = 0x84 ∨ t = 0x96 ∨
            t = 0x9c ∨ t = 0x9f := by
          have := ht.1
          simp [trailAll] at this
          tauto
        have hrest := ht.2
        have hlen2 : ∀ (b : Nat), (b :: rest).length ≤ n := by
          intro b; simp at h ⊢; omega
        rcases htt with rfl | rfl | rfl | rfl | rfl | rfl | rfl
        · have hcore : scanCore lowerAsciiStep (0xc3 :: 0xa4 :: rest) =
              97 :: scanCore lowerAsciiStep (101 :: rest) := by
            simp [scanCore, lowerAsciiStep, lowerRepl]
          rw [hcore, mapLast_cons _ _ (scanCore_ne_nil _ (by simp)),
            ih _ (hlen2 _) (validOver_cons_ascii (by omega) hrest),
            toLowerAsciiSpec_inert (by omega)]
          simp [toLowerAsciiSpec, toLowerB]
        · have hcore : scanCore lowerAsciiStep (0xc3 :: 0xb6 :: rest) =
              111 :: scanCore lowerAsciiStep (101 :: rest) := by
            simp [scanCore, lowerAsciiStep, lowerRepl]
          rw [hcore, mapLast_cons _ _ (scanCore_ne_nil _ (by simp)),
            ih _ (hlen2 _) (validOver_cons_ascii (by omega) hrest),
            toLowerAsciiSpec_inert (by omega)]
          simp [toLowerAsciiSpec, toLowerB]
        · have hcore : scanCore lowerAsciiStep (0xc3 :: 0xbc :: rest) =
              117 :: scanCore lowerAsciiStep (101 :: rest) := by
            simp [scanCore, lowerAsciiStep, lowerRepl]
          rw [hcore, mapLast_cons _ _ (scanCore_ne_nil _ (by simp)),
            ih _ (hlen2 _) (validOver_cons_ascii (by omega) hrest),
            toLowerAsciiSpec_inert (by omega)]
          simp [toLowerAsciiSpec, toLowerB]
        · have hcore : scanCore lowerAsciiStep (0xc3 :: 0x84 :: rest) =
              97 :: scanCore lowerAsciiStep (101 :: rest) := by
            simp [scanCore, lowerAsciiStep, lowerRepl]
          rw [hcore, mapLast_cons _ _ (scanCore_ne_nil _ (by simp)),
            ih _ (hlen2 _) (validOver_cons_ascii (by omega) hrest),
            toLowerAsciiSpec_inert (by omega)]
          simp [toLowerAsciiSpec, toLowerB]
        · have hcore : scanCore lowerAsciiStep (0xc3 :: 0x96 :: rest) =
              111 :: scanCore lowerAsciiStep (101 :: rest) := by
            simp [scanCore, lowerAsciiStep, lowerRepl]
          rw [hcore, mapLast_cons _ _ (scanCore_ne_nil _ (by simp)),
            ih _ (hlen2 _) (validOver_cons_ascii (by omega) hrest),
            toLowerAsciiSpec_inert (by omega)]
          simp [toLowerAsciiSpec, toLowerB]
        · have hcore : scanCore lowerAsciiStep (0xc3 :: 0x9c :: rest) =
              117 :: scanCore lowerAsciiStep (101 :: rest) := by
            simp [scanCore, lowerAsciiStep, lowerRepl]
          rw [hcore, mapLast_cons _ _ (scanCore_ne_nil _ (by simp)),
            ih _ (hlen2 _) (validOver_cons_ascii (by omega) hrest),
            toLowerAsciiSpec_inert (by omega)]
          simp [toLowerAsciiSpec, toLowerB]
        · have hcore : scanCore lowerAsciiStep (0xc3 :: 0x9f :: rest) =
              115 :: scanCore lowerAsciiStep (115 :: rest) := by
            simp [scanCore, lowerAsciiStep, lowerRepl]
          rw [hcore, mapLast_cons _ _ (scanCore_ne_nil _ (by simp)),
            ih _ (hlen2 _) (validOver_cons_ascii (by omega) hrest),
            toLowerAsciiSpec_inert (by omega)]
          simp [toLowerAsciiSpec, toLowerB]
      · have hrest : validA (t :: rest) = true := (validOver_ascii_dest hc hv).2
        have hlen : (t :: rest).length ≤ n := by simp at h ⊢; omega
        have hcore : scanCore lowerAsciiStep (c :: t :: rest) =
            toLowerB c :: scanCore lowerAsciiStep (t :: rest) := by
          simp [scanCore, lowerAsciiStep, hc]
        rw [hcore, mapLast_cons _ _ (scanCore_ne_nil _ (by simp)), ih _ hlen hrest,
          toLowerAsciiSpec_inert hc]

/-- On valid buffers, the combined uppercase-transliteration loop plus
final-byte fixup is exactly `toUpperAsciiSpec`. -/
theorem mapLast_scanCore_upperAscii : ∀ (n : Nat) (s : List Nat), s.length ≤ n →
    validA s = true →
    mapLast toUpperB (scanCore upperAsciiStep s) = toUpperAsciiSpec s := by
  intro n
  induction n with
  | zero =>
    intro s h hv
    match s with
    | [] => simp [scanCore, mapLast, toUpperAsciiSpec]
    | c :: r => simp at h
  | succ n ih =>
    intro s h hv
    match s with
    | [] => simp [scanCore, mapLast, toUpperAsciiSpec]
    | [c] => simp [scanCore, mapLast, toUpperAsciiSpec]
    | c :: t :: rest =>
      by_cases hc : c = 0xc3
      · subst hc
        have ht : t ∈ trailAll ∧ validOver trailAll rest = true :=
          validOver_pair_dest hv
        have htt : t = 0xa4 ∨ t = 0xb6 ∨ t = 0xbc ∨ t = 0x84 ∨ t = 0x96 ∨
            t = 0x9c ∨ t = 0x9f := by
          have := ht.1
          simp [trailAll] at this
          tauto
        have hrest := ht.2
        have hlen2 : ∀ (b : Nat), (b :: rest).length ≤ n := by
          intro b; simp at h ⊢; omega
        rcases htt with rfl | rfl | rfl | rfl | rfl | rfl | rfl
        · have hcore : scanCore upperAsciiStep (0xc3 :: 0xa4 :: rest) =
              65 :: scanCore upperAsciiStep (69 :: rest) := by
            simp [scanCore, upperAsciiStep, upperRepl]
          rw [hcore, mapLast_cons _ _ (scanCore_ne_nil _ (by simp)),
            ih _ (hlen2 _) (validOver_cons_ascii (by omega) hrest),
            toUpperAsciiSpec_inert (by omega)]
          simp [toUpperAsciiSpec, toUpperB]
        · have hcore : scanCore upperAsciiStep (0xc3 :: 0xb6 :: rest) =
              79 :: scanCore upperAsciiStep (69 :: rest) := by
            simp [scanCore, upperAsciiStep, upperRepl]
          rw [hcore, mapLast_cons _ _ (scanCore_ne_nil _ (by simp)),
            ih _ (hlen2 _) (validOver_cons_ascii (by omega) hrest),
            toUpperAsciiSpec_inert (by omega)]
          simp [toUpperAsciiSpec, toUpperB]
        · have hcore : scanCore upperAsciiStep (0xc3 :: 0xbc :: rest) =
              85 :: scanCore upperAsciiStep (69 :: rest) := by
            simp [scanCore, upperAsciiStep, upperRepl]
          rw [hcore, mapLast_cons _ _ (scanCore_ne_nil _ (by simp)),
            ih _ (hlen2 _) (validOver_cons_ascii (by omega) hrest),
            toUpperAsciiSpec_inert (by omega)]
          simp [toUpperAsciiSpec, toUpperB]
        · have hcore : scanCore upperAsciiStep (0xc3 :: 0x84 :: rest) =
              65 :: scanCore upperAsciiStep (69 :: rest) := by
            simp [scanCore, upperAsciiStep, upperRepl]
          rw [hcore, mapLast_cons _ _ (scanCore_ne_nil _ (by simp)),
            ih _ (hlen2 _) (validOver_cons_ascii (by omega) hrest),
            toUpperAsciiSpec_inert (by omega)]
          simp [toUpperAsciiSpec, toUpperB]
        · have hcore : scanCore upperAsciiStep (0xc3 :: 0x96 :: rest) =
              79 :: scanCore upperAsciiStep (69 :: rest) := by
            simp [scanCore, upperAsciiStep, upperRepl]
          rw [hcore, mapLast_cons _ _ (scanCore_ne_nil _ (by simp)),
            ih _ (hlen2 _) (validOver_cons_ascii (by omega) hrest),
            toUpperAsciiSpec_inert (by omega)]
          simp [toUpperAsciiSpec, toUpperB]
        · have hcore : scanCore upperAsciiStep (0xc3 :: 0x9c :: rest) =
              85 :: scanCore upperAsciiStep (69 :: rest) := by
            simp [scanCore, upperAsciiStep, upperRepl]
          rw [hcore, mapLast_cons _ _ (scanCore_ne_nil _ (by simp)),
            ih _ (hlen2 _) (validOver_cons_ascii (by omega) hrest),
            toUpperAsciiSpec_inert (by omega)]
          simp [toUpperAsciiSpec, toUpperB]
        · have hcore : scanCore upperAsciiStep (0xc3 :: 0x9f :: rest) =
              83 :: scanCore upperAsciiStep (83 :: rest) := by
            simp [scanCore, upperAsciiStep, upperRepl]
          rw [hcore, mapLast_cons _ _ (scanCore_ne_nil _ (by simp)),
            ih _ (hlen2 _) (validOver_cons_ascii (by omega) hrest),
            toUpperAsciiSpec_inert (by omega)]
          simp [toUpperAsciiSpec, toUpperB]
      · have hrest : validA (t :: rest) = true := (validOver_ascii_dest hc hv).2
        have hlen : (t :: rest).length ≤ n := by simp at h ⊢; omega
        have hcore : scanCore upperAsciiStep (c :: t :: rest) =
            toUpperB c :: scanCore upperAsciiStep (t :: rest) := by
          simp [scanCore, upperAsciiStep, hc]
        rw [hcore, mapLast_cons _ _ (scanCore_ne_nil _ (by simp)), ih _ hlen hrest,
          toUpperAsciiSpec_inert hc]

theorem make_toLowerAscii_eq {s : List Nat} (hne : s ≠ []) (hus : s.length ≤ USIZE)
    (hv : validA s = true) :
    make_utf8_umlauts_to_lowercase_ascii s = .ok (toLowerAsciiSpec s) := by
  have hpos : 0 < s.length := List.length_pos.mpr hne
  have h := scanLoop_append lowerAsciiStep (s.length + 1) s [] (by omega)
    (by simp; omega) (by simp; omega)
  simp only [List.nil_append, List.length_nil] at h
  unfold make_utf8_umlauts_to_lowercase_ascii
  rw [h]
  show RunResult.ok (mapLast toLowerB (scanCore lowerAsciiStep s)) =
    RunResult.ok (toLowerAsciiSpec s)
  rw [mapLast_scanCore_lowerAscii s.length s le_rfl hv]

theorem make_toUpperAscii_eq {s : List Nat} (hne : s ≠ []) (hus : s.length ≤ USIZE)
    (hv : validA s = true) :
    make_utf8_umlauts_to_uppercase_ascii s = .ok (toUpperAsciiSpec s) := by
  have hpos : 0 < s.length := List.length_pos.mpr hne
  have h := scanLoop_append upperAsciiStep (s.length + 1) s [] (by omega)
    (by simp; omega) (by simp; omega)
  simp only [List.nil_append, List.length_nil] at h
  unfold make_utf8_umlauts_to_uppercase_ascii
  rw [h]
  show RunResult.ok (mapLast toUpperB (scanCore upperAsciiStep s)) =
    RunResult.ok (toUpperAsciiSpec s)
  rw [mapLast_scanCore_upperAscii s.length s le_rfl hv]

theorem toAsciiSpec_inert {c : Nat} (h : c ≠ 0xc3) (l : List Nat) :
    toAsciiSpec (c :: l) = c :: toAsciiSpec l := by
  match l with
  | [] => simp [toAsciiSpec]
  | y :: r => simp [toAsciiSpec, h]

theorem toAsciiSpec_append_of_no_c3 :
    ∀ (P : List Nat), (∀ x ∈ P, x ≠ 0xc3) → ∀ (z : List Nat),
      toAsciiSpec (P ++ z) = P ++ toAsciiSpec z := by
  intro P
  induction P with
  | nil => intro _ z; rfl
  | cons c P ih =>
    intro h z
    rw [List.cons_append, toAsciiSpec_inert (h c (by simp)),
      ih (fun x hx => h x (by simp [hx]))]
    rfl

theorem toAsciiSpec_of_no_c3 :
    ∀ (s : List Nat), (∀ x ∈ s, x ≠ 0xc3) → toAsciiSpec s = s := by
  intro s h
  have h2 := toAsciiSpec_append_of_no_c3 s h []
  simp only [List.append_nil] at h2
  rw [h2]
  simp [toAsciiSpec]

theorem countC3_append (a b : List Nat) :
    countC3 (a ++ b) = countC3 a + countC3 b := by
  induction a with
  | nil => simp [countC3]
  | cons c a ih => simp [countC3, ih]; omega

theorem countC3_eq_zero {P : List Nat} (h : ∀ x ∈ P, x ≠ 0xc3) :
    countC3 P = 0 := by
  induction P with
  | nil => rfl
  | cons c P ih =>
    simp [countC3, h c (by simp), ih (fun x hx => h x (by simp [hx]))]

theorem countC3_le_length : ∀ (s : List Nat), countC3 s ≤ s.length := by
  intro s
  induction s with
  | nil => simp [countC3]
  | cons c r ih => simp [countC3]; split <;> omega

theorem memchrList_none {b : Nat} :
    ∀ {l : List Nat}, (∀ x ∈ l, x ≠ b) → memchrList b l = none := by
  intro l
  induction l with
  | nil => intro _; rfl
  | cons c rest ih =>
    intro h
    simp [memchrList, h c (by simp), ih (fun x hx => h x (by simp [hx]))]

theorem memchrList_append {b : Nat} :
    ∀ (P : List Nat), (∀ x ∈ P, x ≠ b) → ∀ (z : List Nat),
      memchrList b (P ++ b :: z) = some P.length := by
  intro P
  induction P with
  | nil => intro _ z; simp [memchrList]
  | cons c P ih =>
    intro h z
    simp [memchrList, h c (by simp), ih (fun x hx => h x (by simp [hx])) z]

theorem take_c3_pref (Q : List Nat) (t : Nat) (r : List Nat) :
    (Q ++ 0xc3 :: t :: r).take (Q.length + r.length + 1) =
      Q ++ 0xc3 :: (t :: r).take r.length := by
  rw [List.take_append_eq_append_take]
  have h1 : Q.take (Q.length + r.length + 1) = Q :=
    List.take_of_length_le (by omega)
  have h2 : Q.length + r.length + 1 - Q.length = r.length + 1 := by omega
  rw [h1, h2, List.take_succ_cons]

/-- Valid buffers containing a `0xc3` split at their first pair. -/
theorem valid_c3_decomp {ts : List Nat} :
    ∀ (n : Nat) (s : List Nat), s.length ≤ n →
      validOver ts s = true → 0xc3 ∈ s →
      ∃ P t r, s = P ++ 0xc3 :: t :: r ∧ (∀ x ∈ P, x < 0x80) ∧ t ∈ ts ∧
        validOver ts r = true := by
  intro n
  induction n with
  | zero =>
    intro s h hv hm
    match s with
    | [] => simp at hm
    | c :: r => simp at h
  | succ n ih =>
    intro s h hv hm
    match s with
    | [] => simp at hm
    | [c] =>
      have hc : c = 0xc3 := by
        have := hm
        simp at this
        omega
      subst hc
      simp [validOver, isAsciiB] at hv
    | c :: t0 :: rest =>
      by_cases hc : c = 0xc3
      · subst hc
        have hd := validOver_pair_dest hv
        exact ⟨[], t0, rest, by simp, by simp, hd.1, hd.2⟩
      · have hd := validOver_ascii_dest hc hv
        have hm2 : 0xc3 ∈ t0 :: rest := by
          rcases List.mem_cons.mp hm with h1 | h1
          · exact absurd h1.symm hc
          · exact h1
        obtain ⟨P, t, r, heq, hPa, ht, hvr⟩ :=
          ih (t0 :: rest) (by simp at h ⊢; omega) hd.2 hm2
        refine ⟨c :: P, t, r, by rw [List.cons_append, ← heq], ?_, ht, hvr⟩
        intro x hx
        rcases List.mem_cons.mp hx with rfl | hx2
        · exact hd.1
        · exact hPa x hx2

theorem asciiRepl_ascii {t : Nat} {p : Nat × Nat} (h : asciiRepl t = some p) :
    p.1 < 0x80 ∧ p.2 < 0x80 := by
  unfold asciiRepl at h
  split_ifs at h
  all_goals first
    | exact Option.noConfusion h
    | (cases h; constructor <;> norm_num)

theorem asciiRepl_ne_c3 {t : Nat} {p : Nat × Nat} (h : asciiRepl t = some p) :
    t ≠ 0xc3 := by
  unfold asciiRepl at h
  split_ifs at h
  all_goals first
    | exact Option.noConfusion h
    | omega

theorem toAsciiSpec_pair {t : Nat} {p : Nat × Nat} (h : asciiRepl t = some p)
    (r : List Nat) :
    toAsciiSpec (0xc3 :: t :: r) = p.1 :: p.2 :: toAsciiSpec r := by
  unfold asciiRepl at h
  split_ifs at h
  all_goals first
    | exact Option.noConfusion h
    | (cases h; simp_all [toAsciiSpec])

theorem asciiRepl_of_mem_trailAll {t : Nat} (h : t ∈ trailAll) :
    asciiRepl t ≠ none := by
  simp [trailAll] at h
  rcases h with rfl | rfl | rfl | rfl | rfl | rfl | rfl <;> simp [asciiRepl]

theorem valid_no_c3_ascii {ts : List Nat} :
    ∀ (s : List Nat), validOver ts s = true → 0xc3 ∉ s → ∀ x ∈ s, x < 0x80 := by
  intro s
  induction s with
  | nil => intro _ _ x hx; simp at hx
  | cons c rest ih =>
    intro hv hm x hx
    have hc : c ≠ 0xc3 := fun h => hm (by simp [h])
    have hd := validOver_ascii_dest hc hv
    rcases List.mem_cons.mp hx with rfl | hx2
    · exact hd.1
    · exact ih hd.2 (fun h => hm (by simp [h])) x hx2

/-- Main loop lemma for `make_utf8_umlauts_to_ascii` on valid buffers: with
an all-ASCII processed prefix `A` in place, the loop rewrites the remaining
valid suffix `s` into `toAsciiSpec s`.  The resume index `i` only feeds the
loop guard; it must stay below `len - 1` while pairs remain. -/
theorem toAsciiLoop_valid :
    ∀ (fuel : Nat) (A s : List Nat) (i : Nat),
      (∀ x ∈ A, x < 0x80) → validA s = true →
      countC3 s + 1 ≤ fuel →
      (0xc3 ∈ s → i + 1 < A.length + s.length) →
      1 ≤ A.length + s.length → A.length + s.length ≤ USIZE →
      toAsciiLoop fuel (A ++ s) i = .ok (A ++ toAsciiSpec s) := by
  intro fuel
  induction fuel with
  | zero => intro A s i _ _ hcnt _ _ _; omega
  | succ fuel ih =>
    intro A s i hA hv hcnt hi hne hus
    by_cases hc3 : 0xc3 ∈ s
    · obtain ⟨P, t, r, heqs, hPa, ht, hvr⟩ :=
        valid_c3_decomp s.length s le_rfl hv hc3
      subst heqs
      have hPn : ∀ x ∈ P, x ≠ 0xc3 := fun x hx => by have := hPa x hx; omega
      have hQa : ∀ x ∈ A ++ P, x < 0x80 := by
        intro x hx
        rcases List.mem_append.mp hx with h | h
        · exact hA x h
        · exact hPa x h
      have hQn : ∀ x ∈ A ++ P, x ≠ 0xc3 := fun x hx => by have := hQa x hx; omega
      have hus2 : A.length + P.length + r.length + 2 ≤ USIZE := by
        simp at hus; omega
      have hi2 : i + 1 < A.length + P.length + r.length + 2 := by
        have := hi (by simp)
        simp at this
        omega
      have hassoc : A ++ (P ++ 0xc3 :: t :: r) = (A ++ P) ++ 0xc3 :: t :: r := by
        simp
      have hw : wsub1 ((A ++ P) ++ 0xc3 :: t :: r).length
          = (A ++ P).length + r.length + 1 := by
        rw [wsub1_of_pos (by simp; omega) (by simp; omega)]
        simp
        omega
      have hg : i < wsub1 ((A ++ P) ++ 0xc3 :: t :: r).length := by
        rw [hw]
        simp
        omega
      have hsl : wsub1 ((A ++ P) ++ 0xc3 :: t :: r).length
          ≤ ((A ++ P) ++ 0xc3 :: t :: r).length := by
        rw [hw]
        simp
        omega
      have hmc : memchrList 0xc3 (((A ++ P) ++ 0xc3 :: t :: r).take
          (wsub1 ((A ++ P) ++ 0xc3 :: t :: r).length)) = some (A ++ P).length := by
        rw [hw, take_c3_pref]
        exact memchrList_append (A ++ P) hQn _
      rw [hassoc]
      simp only [toAsciiLoop, if_pos hg, if_pos hsl]
      split
      case _ next_i heq =>
        rw [hmc] at heq
        injection heq with heq2
        subst heq2
        have hbnd : (A ++ P).length + 1 < ((A ++ P) ++ 0xc3 :: t :: r).length := by
          simp
          omega
        rw [if_pos hbnd, getD_append_len1 (A ++ P) 0xc3 t r]
        split
        case _ prepl heq2 =>
          have hpa := asciiRepl_ascii heq2
          have htne := asciiRepl_ne_c3 heq2
          rw [set_append_len, set_append_len1]
          have hbuf : (A ++ P) ++ prepl.1 :: prepl.2 :: r
              = ((A ++ P) ++ [prepl.1, prepl.2]) ++ r := by simp
          rw [hbuf]
          have hcr : countC3 r + 1 ≤ fuel := by
            rw [countC3_append, countC3_eq_zero hPn] at hcnt
            simp [countC3, htne] at hcnt
            omega
          have h3 := ih ((A ++ P) ++ [prepl.1, prepl.2]) r ((A ++ P).length + 1)
            (by
              intro x hx
              rcases List.mem_append.mp hx with h | h
              · exact hQa x h
              · rcases List.mem_cons.mp h with rfl | h2
                · exact hpa.1
                · rcases List.mem_cons.mp h2 with rfl | h3
                  · exact hpa.2
                  · simp at h3)
            (show validOver trailAll r = true from hvr)
            hcr
            (by
              intro hm
              have hr : r ≠ [] := List.ne_nil_of_mem hm
              have hr2 : 0 < r.length := List.length_pos.mpr hr
              simp
              omega)
            (by simp; omega)
            (by simp; omega)
          rw [h3]
          rw [toAsciiSpec_append_of_no_c3 P hPn, toAsciiSpec_pair heq2]
          simp
        case _ heq2 =>
          exact absurd heq2 (asciiRepl_of_mem_trailAll ht)
      case _ heq =>
        rw [hmc] at heq
        simp at heq
    · have hsa : ∀ x ∈ s, x < 0x80 :=
        valid_no_c3_ascii s (show validOver trailAll s = true from hv) hc3
      have hall : ∀ x ∈ A ++ s, x ≠ 0xc3 := by
        intro x hx
        rcases List.mem_append.mp hx with h | h
        · have := hA x h; omega
        · have := hsa x h; omega
      have hspec : toAsciiSpec s = s :=
        toAsciiSpec_of_no_c3 s (fun x hx => by have := hsa x hx; omega)
      rw [hspec]
      by_cases hg : i < wsub1 (A ++ s).length
      · have hsl : wsub1 (A ++ s).length ≤ (A ++ s).length := by
          rw [wsub1_of_pos (by simp; omega) (by simp; omega)]
          omega
        have hmem : memchrList 0xc3 ((A ++ s).take (wsub1 (A ++ s).length))
            = none := by
          apply memchrList_none
          intro x hx
          exact hall x ((List.take_sublist _ _).subset hx)
        simp only [toAsciiLoop, if_pos hg, if_pos hsl, hmem]
      · simp only [toAsciiLoop, if_neg hg]

/-- `make_utf8_umlauts_to_ascii` on a nonempty valid buffer terminates and
produces `toAsciiSpec`. -/
theorem make_toAscii_eq {s : List Nat} (hne : s ≠ []) (hus : s.length ≤ USIZE)
    (hv : validA s = true) :
    make_utf8_umlauts_to_ascii s = .ok (toAsciiSpec s) := by
  have hpos : 0 < s.length := List.length_pos.mpr hne
  have hcnt := countC3_le_length s
  have h := toAsciiLoop_valid (s.length + 2) [] s 0 (by simp) hv (by omega)
    (by
      intro hm
      obtain ⟨P, t, r, heqs, _, _, _⟩ := valid_c3_decomp s.length s le_rfl hv hm
      subst heqs
      simp
      omega)
    (by simp; omega) (by simp; omega)
  simp only [List.nil_append] at h
  exact h

theorem toAscii_diverges_aux : ∀ (fuel : Nat),
    toAsciiLoop fuel [0xc3, 0x28, 0x41, 0x41] 2 = .outOfFuel := by
  intro fuel
  induction fuel with
  | zero => rfl
  | succ fuel ih =>
    rw [show toAsciiLoop (fuel + 1) [0xc3, 0x28, 0x41, 0x41] 2
        = toAsciiLoop fuel [0xc3, 0x28, 0x41, 0x41] 2 from rfl]
    exact ih

theorem toAscii_diverges_from_start : ∀ (fuel : Nat),
    toAsciiLoop fuel [0xc3, 0x28, 0x41, 0x41] 0 = .outOfFuel := by
  intro fuel
  match fuel with
  | 0 => rfl
  | fuel + 1 =>
    rw [show toAsciiLoop (fuel + 1) [0xc3, 0x28, 0x41, 0x41] 0
        = toAsciiLoop fuel [0xc3, 0x28, 0x41, 0x41] 2 from rfl]
    exact toAscii_diverges_aux fuel

theorem scanLoop_length (step : Nat → Nat → Act) :
    ∀ (fuel : Nat) (s : List Nat) (i : Nat) (t : List Nat),
      scanLoop step fuel s i = .ok t → t.length = s.length := by
  intro fuel
  induction fuel with
  | zero => intro s i t h; exact absurd h (by simp [scanLoop])
  | succ fuel ih =>
    intro s i t h
    simp only [scanLoop] at h
    split at h
    · split at h
      · split at h
        · have h2 := ih _ _ _ h
          simpa using h2
        · have h2 := ih _ _ _ h
          simpa using h2
        · have h2 := ih _ _ _ h
          simpa using h2
        · exact ih _ _ _ h
        · exact ih _ _ _ h
      · exact absurd h (by simp)
    · injection h with h2
      rw [← h2]

theorem toAsciiLoop_length :
    ∀ (fuel : Nat) (s : List Nat) (i : Nat) (t : List Nat),
      toAsciiLoop fuel s i = .ok t → t.length = s.length := by
  intro fuel
  induction fuel with
  | zero => intro s i t h; exact absurd h (by simp [toAsciiLoop])
  | succ fuel ih =>
    intro s i t h
    simp only [toAsciiLoop] at h
    split at h
    · split at h
      · split at h
        · split at h
          · split at h
            · have h2 := ih _ _ _ h
              simpa using h2
            · exact ih _ _ _ h
          · exact absurd h (by simp)
        · injection h with h2
          rw [← h2]
      · exact absurd h (by simp)
    · injection h with h2
      rw [← h2]

theorem finishLast_ok {f : Nat → Nat} {r : RunResult} {t : List Nat}
    (h : finishLast f r = .ok t) : ∃ u, r = .ok u ∧ t = mapLast f u := by
  match r with
  | .ok u =>
    refine ⟨u, rfl, ?_⟩
    injection h with h2
    rw [h2]
  | .fail => exact absurd h (by simp [finishLast])
  | .outOfFuel => exact absurd h (by simp [finishLast])

theorem lowercaseSpec_length : ∀ (s : List Nat),
    (lowercaseSpec s).length = s.length := by
  intro s
  induction s using lowercaseSpec.induct
  all_goals simp_all [lowercaseSpec]
  all_goals split_ifs <;> simp_all

theorem uppercaseSpec_length : ∀ (s : List Nat),
    (uppercaseSpec s).length = s.length := by
  intro s
  induction s using uppercaseSpec.induct
  all_goals simp_all [uppercaseSpec]
  all_goals split_ifs <;> simp_all

theorem toAsciiSpec_length : ∀ (s : List Nat),
    (toAsciiSpec s).length = s.length := by
  intro s
  induction s using toAsciiSpec.induct
  all_goals simp_all [toAsciiSpec]

theorem toLowerAsciiSpec_length : ∀ (s : List Nat),
    (toLowerAsciiSpec s).length = s.length := by
  intro s
  induction s using toLowerAsciiSpec.induct
  all_goals simp_all [toLowerAsciiSpec]
  all_goals split_ifs <;> simp_all

theorem toUpperAsciiSpec_length : ∀ (s : List Nat),
    (toUpperAsciiSpec s).length = s.length := by
  intro s
  induction s using toUpperAsciiSpec.induct
  all_goals simp_all [toUpperAsciiSpec]
  all_goals split_ifs <;> simp_all

theorem lowerFixed_spec_eq : ∀ (s : List Nat),
    lowerFixed s = true → lowercaseSpec s = s := by
  intro s
  induction s using lowerFixed.induct with
  | case1 => intro _; rfl
  | case2 c =>
    intro h
    simp only [lowerFixed, Bool.not_eq_true', decide_eq_false_iff_not] at h
    have hl : toLowerB c = c := by unfold toLowerB; rw [if_neg h]
    simp [lowercaseSpec, hl]
  | case3 c t rest ih =>
    intro h
    simp only [lowerFixed, Bool.and_eq_true, Bool.not_eq_true',
      decide_eq_false_iff_not] at h
    obtain ⟨⟨h1, h2⟩, h3⟩ := h
    rw [lowercaseSpec, if_neg h1, if_neg h2, ih h3]

theorem upperFixed_spec_eq : ∀ (s : List Nat),
    upperFixed s = true → uppercaseSpec s = s := by
  intro s
  induction s using upperFixed.induct with
  | case1 => intro _; rfl
  | case2 c =>
    intro h
    simp only [upperFixed, Bool.not_eq_true', decide_eq_false_iff_not] at h
    have hl : toUpperB c = c := by unfold toUpperB; rw [if_neg h]
    simp [uppercaseSpec, hl]
  | case3 c t rest ih =>
    intro h
    simp only [upperFixed, Bool.and_eq_true, Bool.not_eq_true',
      decide_eq_false_iff_not] at h
    obtain ⟨⟨h1, h2⟩, h3⟩ := h
    rw [uppercaseSpec, if_neg h1, if_neg h2, ih h3]

theorem toLowerB_not_upper (c : Nat) : ¬(65 ≤ toLowerB c ∧ toLowerB c ≤ 90) := by
  unfold toLowerB
  split_ifs with h <;> omega

theorem toUpperB_not_lower (c : Nat) : ¬(97 ≤ toUpperB c ∧ toUpperB c ≤ 122) := by
  unfold toUpperB
  split_ifs with h <;> omega

theorem lowercaseSpec_head : ∀ (c : Nat) (r : List Nat),
    ∃ l2, lowercaseSpec (c :: r) = toLowerB c :: l2 := by
  intro c r
  match r with
  | [] => exact ⟨[], rfl⟩
  | t :: rest =>
    by_cases h1 : 65 ≤ c ∧ c ≤ 90
    · refine ⟨lowercaseSpec (t :: rest), ?_⟩
      simp [lowercaseSpec, h1, toLowerB]
    · by_cases h2 : c = 0xc3 ∧ (t = 0x84 ∨ t = 0x96 ∨ t = 0x9c)
      · refine ⟨(t + 0x20) :: lowercaseSpec rest, ?_⟩
        rw [lowercaseSpec, if_neg h1, if_pos h2]
        simp [toLowerB, h1]
      · refine ⟨lowercaseSpec (t :: rest), ?_⟩
        rw [lowercaseSpec, if_neg h1, if_neg h2]
        simp [toLowerB, h1]

theorem uppercaseSpec_head : ∀ (c : Nat) (r : List Nat),
    ∃ l2, uppercaseSpec (c :: r) = toUpperB c :: l2 := by
  intro c r
  match r with
  | [] => exact ⟨[], rfl⟩
  | t :: rest =>
    by_cases h1 : 97 ≤ c ∧ c ≤ 122
    · refine ⟨uppercaseSpec (t :: rest), ?_⟩
      simp [uppercaseSpec, h1, toUpperB]
    · by_cases h2 : c = 0xc3 ∧ (t = 0xa4 ∨ t = 0xb6 ∨ t = 0xbc)
      · refine ⟨(t - 0x20) :: uppercaseSpec rest, ?_⟩
        rw [uppercaseSpec, if_neg h1, if_pos h2]
        simp [toUpperB, h1]
      · refine ⟨uppercaseSpec (t :: rest), ?_⟩
        rw [uppercaseSpec, if_neg h1, if_neg h2]
        simp [toUpperB, h1]

theorem lowerFixed_cons {x : Nat} {l : List Nat} (hx : ¬(65 ≤ x ∧ x ≤ 90))
    (hp : ∀ y l2, l = y :: l2 → ¬(x = 0xc3 ∧ (y = 0x84 ∨ y = 0x96 ∨ y = 0x9c)))
    (hl : lowerFixed l = true) : lowerFixed (x :: l) = true := by
  match l with
  | [] => simp [lowerFixed, hx]
  | y :: l2 => simp [lowerFixed, hx, hp y l2 rfl, hl]

theorem upperFixed_cons {x : Nat} {l : List Nat} (hx : ¬(97 ≤ x ∧ x ≤ 122))
    (hp : ∀ y l2, l = y :: l2 → ¬(x = 0xc3 ∧ (y = 0xa4 ∨ y = 0xb6 ∨ y = 0xbc)))
    (hl : upperFixed l = true) : upperFixed (x :: l) = true := by
  match l with
  | [] => simp [upperFixed, hx]
  | y :: l2 => simp [upperFixed, hx, hp y l2 rfl, hl]

theorem lowerFixed_of_spec : ∀ (n : Nat) (s : List Nat), s.length ≤ n →
    lowerFixed (lowercaseSpec s) = true := by
  intro n
  induction n with
  | zero =>
    intro s h
    match s with
    | [] => rfl
    | c :: r => simp at h
  | succ n ih =>
    intro s h
    match s with
    | [] => rfl
    | [c] =>
      simp [lowercaseSpec, lowerFixed, toLowerB_not_upper c]
    | c :: t :: rest =>
      have hlen : (t :: rest).length ≤ n := by simp at h ⊢; omega
      have hlenr : rest.length ≤ n := by simp at h ⊢; omega
      by_cases h1 : 65 ≤ c ∧ c ≤ 90
      · rw [lowercaseSpec, if_pos h1]
        apply lowerFixed_cons (by omega)
        · intro y l2 _
          omega
        · exact ih _ hlen
      · by_cases h2 : c = 0xc3 ∧ (t = 0x84 ∨ t = 0x96 ∨ t = 0x9c)
        · rw [lowercaseSpec, if_neg h1, if_pos h2]
          apply lowerFixed_cons h1
          · intro y l2 heq
            injection heq with hy _
            rcases h2.2 with h3 | h3 | h3 <;> omega
          · apply lowerFixed_cons (by rcases h2.2 with h3 | h3 | h3 <;> omega)
            · intro y l2 heq
              rcases h2.2 with h3 | h3 | h3 <;> omega
            · exact ih _ hlenr
        · rw [lowercaseSpec, if_neg h1, if_neg h2]
          apply lowerFixed_cons h1
          · intro y l2 heq
            obtain ⟨l3, hl3⟩ := lowercaseSpec_head t rest
            rw [hl3] at heq
            injection heq with hy _
            intro hcon
            rcases hcon.2 with h3 | h3 | h3 <;>
            · rw [← hy] at h3
              revert h3
              unfold toLowerB
              split_ifs with h4 <;> omega
          · exact ih _ hlen

theorem upperFixed_of_spec : ∀ (n : Nat) (s : List Nat), s.length ≤ n →
    upperFixed (uppercaseSpec s) = true := by
  intro n
  induction n with
  | zero =>
    intro s h
    match s with
    | [] => rfl
    | c :: r => simp at h
  | succ n ih =>
    intro s h
    match s with
    | [] => rfl
    | [c] =>
      simp [uppercaseSpec, upperFixed, toUpperB_not_lower c]
    | c :: t :: rest =>
      have hlen : (t :: rest).length ≤ n := by simp at h ⊢; omega
      have hlenr : rest.length ≤ n := by simp at h ⊢; omega
      by_cases h1 : 97 ≤ c ∧ c ≤ 122
      · rw [uppercaseSpec, if_pos h1]
        apply upperFixed_cons (by omega)
        · intro y l2 _
          omega
        · exact ih _ hlen
      · by_cases h2 : c = 0xc3 ∧ (t = 0xa4 ∨ t = 0xb6 ∨ t = 0xbc)
        · rw [uppercaseSpec, if_neg h1, if_pos h2]
          apply upperFixed_cons h1
          · intro y l2 heq
            injection heq with hy _
            rcases h2.2 with h3 | h3 | h3 <;> omega
          · apply upperFixed_cons (by rcases h2.2 with h3 | h3 | h3 <;> omega)
            · intro y l2 heq
              rcases h2.2 with h3 | h3 | h3 <;> omega
            · exact ih _ hlenr
        · rw [uppercaseSpec, if_neg h1, if_neg h2]
          apply upperFixed_cons h1
          · intro y l2 heq
            obtain ⟨l3, hl3⟩ := uppercaseSpec_head t rest
            rw [hl3] at heq
            injection heq with hy _
            intro hcon
            rcases hcon.2 with h3 | h3 | h3 <;>
            · rw [← hy] at h3
              revert h3
              unfold toUpperB
              split_ifs with h4 <;> omega
          · exact ih _ hlen

theorem lowercaseSpec_idem (s : List Nat) :
    lowercaseSpec (lowercaseSpec s) = lowercaseSpec s :=
  lowerFixed_spec_eq _ (lowerFixed_of_spec s.length s le_rfl)

theorem uppercaseSpec_idem (s : List Nat) :
    uppercaseSpec (uppercaseSpec s) = uppercaseSpec s :=
  upperFixed_spec_eq _ (upperFixed_of_spec s.length s le_rfl)

theorem toAsciiSpec_allAscii : ∀ (n : Nat) (s : List Nat), s.length ≤ n →
    validA s = true → ∀ x ∈ toAsciiSpec s, x < 0x80 := by
  intro n
  induction n with
  | zero =>
    intro s h hv x hx
    match s with
    | [] => simp [toAsciiSpec] at hx
    | c :: r => simp at h
  | succ n ih =>
    intro s h hv x hx
    match s with
    | [] => simp [toAsciiSpec] at hx
    | [c] =>
      simp [validA, validOver, isAsciiB] at hv
      simp [toAsciiSpec] at hx
      omega
    | c :: t :: rest =>
      by_cases hc : c = 0xc3
      · subst hc
        have hd := validOver_pair_dest hv
        obtain ⟨p, hp⟩ :=
          Option.ne_none_iff_exists'.mp (asciiRepl_of_mem_trailAll hd.1)
        rw [toAsciiSpec_pair hp] at hx
        have hpa := asciiRepl_ascii hp
        rcases List.mem_cons.mp hx with rfl | hx2
        · exact hpa.1
        · rcases List.mem_cons.mp hx2 with rfl | hx3
          · exact hpa.2
          · exact ih rest (by simp at h ⊢; omega) hd.2 x hx3
      · have hd := validOver_ascii_dest hc hv
        rw [toAsciiSpec_inert hc] at hx
        rcases List.mem_cons.mp hx with rfl | hx2
        · exact hd.1
        · exact ih (t :: rest) (by simp at h ⊢; omega) hd.2 x hx2

theorem allAscii_validA : ∀ (t : List Nat), (∀ x ∈ t, x < 0x80) →
    validA t = true := by
  intro t
  induction t with
  | nil => intro _; rfl
  | cons c rest ih =>
    intro h
    exact validOver_cons_ascii (h c (by simp))
      (ih (fun x hx => h x (by simp [hx])))

/-- Re-applying `make_utf8_umlauts_to_ascii` to an all-ASCII buffer leaves
it unchanged. -/
theorem make_toAscii_fixed {t : List Nat} (ha : ∀ x ∈ t, x < 0x80)
    (hne : t ≠ []) (hus : t.length ≤ USIZE) :
    make_utf8_umlauts_to_ascii t = .ok t := by
  rw [make_toAscii_eq hne hus (allAscii_validA t ha),
    toAsciiSpec_of_no_c3 t (fun x hx => by have := ha x hx; omega)]

theorem toLowerAsciiSpec_bytes : ∀ (n : Nat) (s : List Nat), s.length ≤ n →
    validA s = true →
    ∀ x ∈ toLowerAsciiSpec s, x < 0x80 ∧ ¬(65 ≤ x ∧ x ≤ 90) := by
  intro n
  induction n with
  | zero =>
    intro s h hv x hx
    match s with
    | [] => simp [toLowerAsciiSpec] at hx
    | c :: r => simp at h
  | succ n ih =>
    intro s h hv x hx
    match s with
    | [] => simp [toLowerAsciiSpec] at hx
    | [c] =>
      simp [validA, validOver, isAsciiB] at hv
      simp [toLowerAsciiSpec] at hx
      subst hx
      constructor
      · unfold toLowerB; split_ifs <;> omega
      · exact toLowerB_not_upper c
    | c :: t :: rest =>
      by_cases hc : c = 0xc3
      · subst hc
        have hd := validOver_pair_dest hv
        have hlenr : rest.length ≤ n := by simp at h ⊢; omega
        have htt : t = 0xa4 ∨ t = 0xb6 ∨ t = 0xbc ∨ t = 0x84 ∨ t = 0x96 ∨
            t = 0x9c ∨ t = 0x9f := by
          have := hd.1
          simp [trailAll] at this
          tauto
        rcases htt with rfl | rfl | rfl | rfl | rfl | rfl | rfl
        · rw [show toLowerAsciiSpec (0xc3 :: 0xa4 :: rest) = 97 :: 101 :: toLowerAsciiSpec rest
              from by simp [toLowerAsciiSpec]] at hx
          rcases List.mem_cons.mp hx with rfl | hx2
          · omega
          · rcases List.mem_cons.mp hx2 with rfl | hx3
            · omega
            · exact ih rest hlenr hd.2 x hx3
        · rw [show toLowerAsciiSpec (0xc3 :: 0xb6 :: rest) = 111 :: 101 :: toLowerAsciiSpec rest
              from by simp [toLowerAsciiSpec]] at hx
          rcases List.mem_cons.mp hx with rfl | hx2
          · omega
          · rcases List.mem_cons.mp hx2 with rfl | hx3
            · omega
            · exact ih rest hlenr hd.2 x hx3
        · rw [show toLowerAsciiSpec (0xc3 :: 0xbc :: rest) = 117 :: 101 :: toLowerAsciiSpec rest
              from by simp [toLowerAsciiSpec]] at hx
          rcases List.mem_cons.mp hx with rfl | hx2
          · omega
          · rcases List.mem_cons.mp hx2 with rfl | hx3
            · omega
            · exact ih rest hlenr hd.2 x hx3
        · rw [show toLowerAsciiSpec (0xc3 :: 0x84 :: rest) = 97 :: 101 :: toLowerAsciiSpec rest
              from by simp [toLowerAsciiSpec]] at hx
          rcases List.mem_cons.mp hx with rfl | hx2
          · omega
          · rcases List.mem_cons.mp hx2 with rfl | hx3
            · omega
            · exact ih rest hlenr hd.2 x hx3
        · rw [show toLowerAsciiSpec (0xc3 :: 0x96 :: rest) = 111 :: 101 :: toLowerAsciiSpec rest
              from by simp [toLowerAsciiSpec]] at hx
          rcases List.mem_cons.mp hx with rfl | hx2
          · omega
          · rcases List.mem_cons.mp hx2 with rfl | hx3
            · omega
            · exact ih rest hlenr hd.2 x hx3
        · rw [show toLowerAsciiSpec (0xc3 :: 0x9c :: rest) = 117 :: 101 :: toLowerAsciiSpec rest
              from by simp [toLowerAsciiSpec]] at hx
          rcases List.mem_cons.mp hx with rfl | hx2
          · omega
          · rcases List.mem_cons.mp hx2 with rfl | hx3
            · omega
            · exact ih rest hlenr hd.2 x hx3
        · rw [show toLowerAsciiSpec (0xc3 :: 0x9f :: rest) = 115 :: 115 :: toLowerAsciiSpec rest
              from by simp [toLowerAsciiSpec]] at hx
          rcases List.mem_cons.mp hx with rfl | hx2
          · omega
          · rcases List.mem_cons.mp hx2 with rfl | hx3
            · omega
            · exact ih rest hlenr hd.2 x hx3
      · have hd := validOver_ascii_dest hc hv
        rw [toLowerAsciiSpec_inert hc] at hx
        rcases List.mem_cons.mp hx with rfl | hx2
        · constructor
          · have := hd.1
            unfold toLowerB
            split_ifs <;> omega
          · exact toLowerB_not_upper c
        · exact ih (t :: rest) (by simp at h ⊢; omega) hd.2 x hx2

theorem toUpperAsciiSpec_bytes : ∀ (n : Nat) (s : List Nat), s.length ≤ n →
    validA s = true →
    ∀ x ∈ toUpperAsciiSpec s, x < 0x80 ∧ ¬(97 ≤ x ∧ x ≤ 122) := by
  intro n
  induction n with
  | zero =>
    intro s h hv x hx
    match s with
    | [] => simp [toUpperAsciiSpec] at hx
    | c :: r => simp at h
  | succ n ih =>
    intro s h hv x hx
    match s with
    | [] => simp [toUpperAsciiSpec] at hx
    | [c] =>
      simp [validA, validOver, isAsciiB] at hv
      simp [toUpperAsciiSpec] at hx
      subst hx
      constructor
      · unfold toUpperB; split_ifs <;> omega
      · exact toUpperB_not_lower c
    | c :: t :: rest =>
      by_cases hc : c = 0xc3
      · subst hc
        have hd := validOver_pair_dest hv
        have hlenr : rest.length ≤ n := by simp at h ⊢; omega
        have htt : t = 0xa4 ∨ t = 0xb6 ∨ t = 0xbc ∨ t = 0x84 ∨ t = 0x96 ∨
            t = 0x9c ∨ t = 0x9f := by
          have := hd.1
          simp [trailAll] at this
          tauto
        rcases htt with rfl | rfl | rfl | rfl | rfl | rfl | rfl
        · rw [show toUpperAsciiSpec (0xc3 :: 0xa4 :: rest) = 65 :: 69 :: toUpperAsciiSpec rest
              from by simp [toUpperAsciiSpec]] at hx
          rcases List.mem_cons.mp hx with rfl | hx2
          · omega
          · rcases List.mem_cons.mp hx2 with rfl | hx3
            · omega
            · exact ih rest hlenr hd.2 x hx3
        · rw [show toUpperAsciiSpec (0xc3 :: 0xb6 :: rest) = 79 :: 69 :: toUpperAsciiSpec rest
              from by simp [toUpperAsciiSpec]] at hx
          rcases List.mem_cons.mp hx with rfl | hx2
          · omega
          · rcases List.mem_cons.mp hx2 with rfl | hx3
            · omega
            · exact ih rest hlenr hd.2 x hx3
        · rw [show toUpperAsciiSpec (0xc3 :: 0xbc :: rest) = 85 :: 69 :: toUpperAsciiSpec rest
              from by simp [toUpperAsciiSpec]] at hx
          rcases List.mem_cons.mp hx with rfl | hx2
          · omega
          · rcases List.mem_cons.mp hx2 with rfl | hx3
            · omega
            · exact ih rest hlenr hd.2 x hx3
        · rw [show toUpperAsciiSpec (0xc3 :: 0x84 :: rest) = 65 :: 69 :: toUpperAsciiSpec rest
              from by simp [toUpperAsciiSpec]] at hx
          rcases List.mem_cons.mp hx with rfl | hx2
          · omega
          · rcases List.mem_cons.mp hx2 with rfl | hx3
            · omega
            · exact ih rest hlenr hd.2 x hx3
        · rw [show toUpperAsciiSpec (0xc3 :: 0x96 :: rest) = 79 :: 69 :: toUpperAsciiSpec rest
              from by simp [toUpperAsciiSpec]] at hx
          rcases List.mem_cons.mp hx with rfl | hx2
          · omega
          · rcases List.mem_cons.mp hx2 with rfl | hx3
            · omega
            · exact ih rest hlenr hd.2 x hx3
        · rw [show toUpperAsciiSpec (0xc3 :: 0x9c :: rest) = 85 :: 69 :: toUpperAsciiSpec rest
              from by simp [toUpperAsciiSpec]] at hx
          rcases List.mem_cons.mp hx with rfl | hx2
          · omega
          · rcases List.mem_cons.mp hx2 with rfl | hx3
            · omega
            · exact ih rest hlenr hd.2 x hx3
        · rw [show toUpperAsciiSpec (0xc3 :: 0x9f :: rest) = 83 :: 83 :: toUpperAsciiSpec rest
              from by simp [toUpperAsciiSpec]] at hx
          rcases List.mem_cons.mp hx with rfl | hx2
          · omega
          · rcases List.mem_cons.mp hx2 with rfl | hx3
            · omega
            · exact ih rest hlenr hd.2 x hx3
      · have hd := validOver_ascii_dest hc hv
        rw [toUpperAsciiSpec_inert hc] at hx
        rcases List.mem_cons.mp hx with rfl | hx2
        · constructor
          · have := hd.1
            unfold toUpperB
            split_ifs <;> omega
          · exact toUpperB_not_lower c
        · exact ih (t :: rest) (by simp at h ⊢; omega) hd.2 x hx2

theorem toLowerAsciiSpec_fixed : ∀ (n : Nat) (s : List Nat), s.length ≤ n →
    (∀ x ∈ s, x < 0x80 ∧ ¬(65 ≤ x ∧ x ≤ 90)) → toLowerAsciiSpec s = s := by
  intro n
  induction n with
  | zero =>
    intro s h hb
    match s with
    | [] => rfl
    | c :: r => simp at h
  | succ n ih =>
    intro s h hb
    match s with
    | [] => rfl
    | [c] =>
      have hc := hb c (by simp)
      have hl : toLowerB c = c := by unfold toLowerB; rw [if_neg hc.2]
      simp [toLowerAsciiSpec, hl]
    | c :: t :: rest =>
      have hc := hb c (by simp)
      have hcne : c ≠ 0xc3 := by have := hc.1; omega
      have hl : toLowerB c = c := by unfold toLowerB; rw [if_neg hc.2]
      rw [toLowerAsciiSpec_inert hcne, hl,
        ih (t :: rest) (by simp at h ⊢; omega)
          (fun x hx => hb x (by simp at hx ⊢; tauto))]

theorem toUpperAsciiSpec_fixed : ∀ (n : Nat) (s : List Nat), s.length ≤ n →
    (∀ x ∈ s, x < 0x80 ∧ ¬(97 ≤ x ∧ x ≤ 122)) → toUpperAsciiSpec s = s := by
  intro n
  induction n with
  | zero =>
    intro s h hb
    match s with
    | [] => rfl
    | c :: r => simp at h
  | succ n ih =>
    intro s h hb
    match s with
    | [] => rfl
    | [c] =>
      have hc := hb c (by simp)
      have hl : toUpperB c = c := by unfold toUpperB; rw [if_neg hc.2]
      simp [toUpperAsciiSpec, hl]
    | c :: t :: rest =>
      have hc := hb c (by simp)
      have hcne : c ≠ 0xc3 := by have := hc.1; omega
      have hl : toUpperB c = c := by unfold toUpperB; rw [if_neg hc.2]
      rw [toUpperAsciiSpec_inert hcne, hl,
        ih (t :: rest) (by simp at h ⊢; omega)
          (fun x hx => hb x (by simp at hx ⊢; tauto))]

theorem lowercaseSpec_of_allAscii : ∀ (n : Nat) (t : List Nat), t.length ≤ n →
    (∀ x ∈ t, x < 0x80) → lowercaseSpec t = t.map toLowerB := by
  intro n
  induction n with
  | zero =>
    intro t h hb
    match t with
    | [] => rfl
    | c :: r => simp at h
  | succ n ih =>
    intro t h hb
    match t with
    | [] => rfl
    | [c] => simp [lowercaseSpec]
    | c :: t2 :: rest =>
      have hih := ih (t2 :: rest) (by simp at h ⊢; omega)
        (fun x hx => hb x (by simp at hx ⊢; tauto))
      by_cases h1 : 65 ≤ c ∧ c ≤ 90
      · rw [lowercaseSpec, if_pos h1, hih]
        have : toLowerB c = c + 32 := by unfold toLowerB; rw [if_pos h1]
        simp [this]
      · have h2 : ¬(c = 0xc3 ∧ (t2 = 0x84 ∨ t2 = 0x96 ∨ t2 = 0x9c)) := by
          have := hb c (by simp)
          omega
        rw [lowercaseSpec, if_neg h1, if_neg h2, hih]
        have : toLowerB c = c := by unfold toLowerB; rw [if_neg h1]
        simp [this]

theorem toLowerAsciiSpec_eq_map : ∀ (n : Nat) (s : List Nat), s.length ≤ n →
    validA s = true →
    toLowerAsciiSpec s = (toAsciiSpec s).map toLowerB := by
  intro n
  induction n with
  | zero =>
    intro s h hv
    match s with
    | [] => rfl
    | c :: r => simp at h
  | succ n ih =>
    intro s h hv
    match s with
    | [] => rfl
    | [c] => simp [toLowerAsciiSpec, toAsciiSpec]
    | c :: t :: rest =>
      by_cases hc : c = 0xc3
      · subst hc
        have hd := validOver_pair_dest hv
        have hlenr : rest.length ≤ n := by simp at h ⊢; omega
        have hih := ih rest hlenr hd.2
        have htt : t = 0xa4 ∨ t = 0xb6 ∨ t = 0xbc ∨ t = 0x84 ∨ t = 0x96 ∨
            t = 0x9c ∨ t = 0x9f := by
          have := hd.1
          simp [trailAll] at this
          tauto
        rcases htt with rfl | rfl | rfl | rfl | rfl | rfl | rfl <;>
          simp [toLowerAsciiSpec, toAsciiSpec, toLowerB, hih]
      · have hd := validOver_ascii_dest hc hv
        have hih := ih (t :: rest) (by simp at h ⊢; omega) hd.2
        rw [toLowerAsciiSpec_inert hc, toAsciiSpec_inert hc, hih]
        simp

theorem validOver_subset {ts1 ts2 : List Nat} (hsub : ∀ x ∈ ts1, x ∈ ts2) :
    ∀ (n : Nat) (s : List Nat), s.length ≤ n →
      validOver ts1 s = true → validOver ts2 s = true := by
  intro n
  induction n with
  | zero =>
    intro s h hv
    match s with
    | [] => rfl
    | c :: r => simp at h
  | succ n ih =>
    intro s h hv
    match s with
    | [] => rfl
    | [c] =>
      simp [validOver] at hv ⊢
      exact hv
    | c :: t :: rest =>
      by_cases hc : c = 0xc3
      · subst hc
        have hd := validOver_pair_dest hv
        simp [validOver, hsub t hd.1, ih rest (by simp at h ⊢; omega) hd.2]
      · have hd := validOver_ascii_dest hc hv
        exact validOver_cons_ascii hd.1
          (ih (t :: rest) (by simp at h ⊢; omega) hd.2)

theorem validNoSS_validA {s : List Nat} (hv : validNoSS s = true) :
    validA s = true :=
  validOver_subset (by decide) s.length s le_rfl hv

theorem lowercaseSpec_valid : ∀ (n : Nat) (s : List Nat), s.length ≤ n →
    validNoSS s = true → validA (lowercaseSpec s) = true := by
  intro n
  induction n with
  | zero =>
    intro s h hv
    match s with
    | [] => rfl
    | c :: r => simp at h
  | succ n ih =>
    intro s h hv
    match s with
    | [] => rfl
    | [c] =>
      simp [validNoSS, validOver, isAsciiB] at hv
      rw [show lowercaseSpec [c] = [toLowerB c] from rfl]
      have : toLowerB c < 0x80 := by unfold toLowerB; split_ifs <;> omega
      simp [validA, validOver, isAsciiB]
      omega
    | c :: t :: rest =>
      have hlenr : rest.length ≤ n := by simp at h ⊢; omega
      have hlen1 : (t :: rest).length ≤ n := by simp at h ⊢; omega
      by_cases hc : c = 0xc3
      · subst hc
        have hd := validOver_pair_dest hv
        have hihr := ih rest hlenr hd.2
        have htt : t = 0xa4 ∨ t = 0xb6 ∨ t = 0xbc ∨ t = 0x84 ∨ t = 0x96 ∨
            t = 0x9c := by
          have := hd.1
          simp [trailNoSS] at this
          tauto
        rcases htt with rfl | rfl | rfl | rfl | rfl | rfl
        · rw [lowercaseSpec, if_neg (by omega), if_neg (by omega),
            lowercaseSpec_inert (by omega) (by omega)]
          simp [validA, validOver, trailAll] at hihr ⊢
          exact hihr
        · rw [lowercaseSpec, if_neg (by omega), if_neg (by omega),
            lowercaseSpec_inert (by omega) (by omega)]
          simp [validA, validOver, trailAll] at hihr ⊢
          exact hihr
        · rw [lowercaseSpec, if_neg (by omega), if_neg (by omega),
            lowercaseSpec_inert (by omega) (by omega)]
          simp [validA, validOver, trailAll] at hihr ⊢
          exact hihr
        · rw [lowercaseSpec, if_neg (by omega), if_pos (by omega)]
          simp [validA, validOver, trailAll] at hihr ⊢
          exact hihr
        · rw [lowercaseSpec, if_neg (by omega), if_pos (by omega)]
          simp [validA, validOver, trailAll] at hihr ⊢
          exact hihr
        · rw [lowercaseSpec, if_neg (by omega), if_pos (by omega)]
          simp [validA, validOver, trailAll] at hihr ⊢
          exact hihr
      · have hd := validOver_ascii_dest hc hv
        have hihr := ih (t :: rest) hlen1 hd.2
        by_cases h1 : 65 ≤ c ∧ c ≤ 90
        · rw [lowercaseSpec, if_pos h1]
          exact validOver_cons_ascii (by omega) hihr
        · rw [lowercaseSpec, if_neg h1, if_neg (by omega)]
          exact validOver_cons_ascii (by omega) hihr

theorem uppercaseSpec_valid : ∀ (n : Nat) (s : List Nat), s.length ≤ n →
    validNoSS s = true → validA (uppercaseSpec s) = true := by
  intro n
  induction n with
  | zero =>
    intro s h hv
    match s with
    | [] => rfl
    | c :: r => simp at h
  | succ n ih =>
    intro s h hv
    match s with
    | [] => rfl
    | [c] =>
      simp [validNoSS, validOver, isAsciiB] at hv
      rw [show uppercaseSpec [c] = [toUpperB c] from rfl]
      have : toUpperB c < 0x80 := by unfold toUpperB; split_ifs <;> omega
      simp [validA, validOver, isAsciiB]
      omega
    | c :: t :: rest =>
      have hlenr : rest.length ≤ n := by simp at h ⊢; omega
      have hlen1 : (t :: rest).length ≤ n := by simp at h ⊢; omega
      by_cases hc : c = 0xc3
      · subst hc
        have hd := validOver_pair_dest hv
        have hihr := ih rest hlenr hd.2
        have htt : t = 0xa4 ∨ t = 0xb6 ∨ t = 0xbc ∨ t = 0x84 ∨ t = 0x96 ∨
            t = 0x9c := by
          have := hd.1
          simp [trailNoSS] at this
          tauto
        rcases htt with rfl | rfl | rfl | rfl | rfl | rfl
        · rw [uppercaseSpec, if_neg (by omega), if_pos (by omega)]
          simp [validA, validOver, trailAll] at hihr ⊢
          exact hihr
        · rw [uppercaseSpec, if_neg (by omega), if_pos (by omega)]
          simp [validA, validOver, trailAll] at hihr ⊢
          exact hihr
        · rw [uppercaseSpec, if_neg (by omega), if_pos (by omega)]
          simp [validA, validOver, trailAll] at hihr ⊢
          exact hihr
        · rw [uppercaseSpec, if_neg (by omega), if_neg (by omega),
            uppercaseSpec_inert (by omega) (by omega)]
          simp [validA, validOver, trailAll] at hihr ⊢
          exact hihr
        · rw [uppercaseSpec, if_neg (by omega), if_neg (by omega),
            uppercaseSpec_inert (by omega) (by omega)]
          simp [validA, validOver, trailAll] at hihr ⊢
          exact hihr
        · rw [uppercaseSpec, if_neg (by omega), if_neg (by omega),
            uppercaseSpec_inert (by omega) (by omega)]
          simp [validA, validOver, trailAll] at hihr ⊢
          exact hihr
      · have hd := validOver_ascii_dest hc hv
        have hihr := ih (t :: rest) hlen1 hd.2
        by_cases h1 : 97 ≤ c ∧ c ≤ 122
        · rw [uppercaseSpec, if_pos h1]
          exact validOver_cons_ascii (by omega) hihr
        · rw [uppercaseSpec, if_neg h1, if_neg (by omega)]
          exact validOver_cons_ascii (by omega) hihr

example : validUtf8 testBuf = true := by decide

example : validUtf8 [0xc3] = false := by decide

example : validUtf8 [0xe2, 0x82, 0xac] = true := by decide

example : validUtf8 [0xed, 0xa0, 0x80] = false := by decide

/-- Buffers valid over ASCII plus the seven code points are valid UTF-8. -/
theorem validA_validUtf8 : ∀ (n : Nat) (s : List Nat), s.length ≤ n →
    validA s = true → validUtf8 s = true := by
  intro n
  induction n with
  | zero =>
    intro s h hv
    match s with
    | [] => rfl
    | c :: r => simp at h
  | succ n ih =>
    intro s h hv
    match s with
    | [] => rfl
    | [c] =>
      simp [validA, validOver, isAsciiB] at hv
      simp [validUtf8]
      omega
    | c :: t :: rest =>
      by_cases hc : c = 0xc3
      · subst hc
        have hd := validOver_pair_dest hv
        have htr : 0x80 ≤ t ∧ t ≤ 0xbf := by
          have := hd.1
          simp [trailAll] at this
          omega
        have hihr := ih rest (by simp at h ⊢; omega) hd.2
        rw [validUtf8.eq_def]
        simp [isCont, hihr]
        omega
      · have hd := validOver_ascii_dest hc hv
        have hihr := ih (t :: rest) (by simp at h ⊢; omega) hd.2
        rw [validUtf8.eq_def]
        have : c ≤ 0x7f := by have := hd.1; omega
        simp [hihr, this]

theorem make_scan_length {step : Nat → Nat → Act} {f : Nat → Nat}
    {s t : List Nat}
    (h : finishLast f (scanLoop step (s.length + 1) s 0) = .ok t) :
    t.length = s.length := by
  obtain ⟨u, hu, ht⟩ := finishLast_ok h
  rw [ht, mapLast_length, scanLoop_length step _ _ _ _ hu]

/-- Claim C1 (code bug): the spec requires every operation to be a panic-free
no-op on the empty buffer, but all five operations abort on it: the loop
guard `while i < self.len() - 1` underflows `usize` when `len = 0` (debug
profile panics at the subtraction; release profile wraps and panics at the
following index/slice bounds check). -/
theorem c1_all_ops_fail_on_empty :
    make_utf8_umlauts_lowercase [] = .fail ∧
    make_utf8_umlauts_uppercase [] = .fail ∧
    make_utf8_umlauts_to_ascii [] = .fail ∧
    make_utf8_umlauts_to_lowercase_ascii [] = .fail ∧
    make_utf8_umlauts_to_uppercase_ascii [] = .fail := by
  refine ⟨by decide, by decide, by decide, by decide, by decide⟩

/-- Claim C2 (code bug): `make_utf8_umlauts_to_ascii` does not terminate on
every input.  On `[0xc3, 0x28, 0x41, 0x41]` — a `0xc3` lead byte followed by
an unrecognised trailing byte and further bytes — the `memchr` search
restarts from the buffer start each iteration, the resume index stalls at 2
while the guard `2 < 3` stays true, and the buffer never changes, so the
loop runs forever: the run exhausts every iteration budget. -/
theorem c2_to_ascii_diverges :
    (∀ fuel : Nat, toAsciiLoop fuel [0xc3, 0x28, 0x41, 0x41] 0 = .outOfFuel) ∧
    make_utf8_umlauts_to_ascii [0xc3, 0x28, 0x41, 0x41] = .outOfFuel :=
  ⟨toAscii_diverges_from_start, toAscii_diverges_from_start 6⟩

/-- Claim C3, counterexample to the unrestricted statement: the empty buffer
is valid UTF-8 over the supported alphabet, yet `make_utf8_umlauts_to_ascii`
panics on it instead of leaving it unchanged. -/
theorem c3_counterexample_empty :
    ¬ (make_utf8_umlauts_to_ascii [] = .ok []) := by decide

/-- Claim C3 (amended to nonempty buffers of usize-representable length):
on every nonempty buffer valid over ASCII plus the seven supported code
points, `make_utf8_umlauts_to_ascii` replaces every `0xc3`-pair with its
digraph per `toAsciiSpec` — ä→ae ö→oe ü→ue Ä→Ae Ö→Oe Ü→Ue ß→ss — skipping
none and leaving every other byte unchanged. -/
theorem c3_to_ascii_replaces_pairs (s : List Nat) (hne : s ≠ [])
    (hus : s.length < USIZE) (hv : validA s = true) :
    make_utf8_umlauts_to_ascii s = .ok (toAsciiSpec s) :=
  make_toAscii_eq hne (le_of_lt hus) hv

/-- Claim C3 witness: the crate's own vector "ÄÖÜäöüABCDabcd" →
"AeOeUeaeoeueABCDabcd", and "ß" → "ss". -/
theorem c3_witness :
    validA testBuf = true ∧
    make_utf8_umlauts_to_ascii testBuf = .ok (toAsciiSpec testBuf) ∧
    toAsciiSpec testBuf = testAscii ∧
    toAsciiSpec [0xc3, 0x9f] = [115, 115] :=
  ⟨by decide, c3_to_ascii_replaces_pairs testBuf (by decide) (by decide)
    (by decide), by decide, by decide⟩

/-- Claim C4, counterexample to the unrestricted statement: on the empty
buffer the lowercase fold panics instead of acting as the identity. -/
theorem c4_counterexample_empty :
    ¬ (make_utf8_umlauts_lowercase [] = .ok []) := by decide

/-- Claim C4 (amended to nonempty buffers of usize-representable length):
on every nonempty buffer — any contents, valid UTF-8 or not —
`make_utf8_umlauts_lowercase` rewrites per `lowercaseSpec`: every ASCII
`A`-`Z` to lowercase, every pair `0xc3 0x84/0x96/0x9c` to
`0xc3 0xa4/0xb6/0xbc` touching only the trailing byte, all other bytes
unchanged; the uppercase fold is the mirror (`uppercaseSpec`). -/
theorem c4_case_folds_rewrite (s : List Nat) (hne : s ≠ [])
    (hus : s.length < USIZE) :
    make_utf8_umlauts_lowercase s = .ok (lowercaseSpec s) ∧
    make_utf8_umlauts_uppercase s = .ok (uppercaseSpec s) :=
  ⟨make_lowercase_eq hne (le_of_lt hus), make_uppercase_eq hne (le_of_lt hus)⟩

/-- Claim C4 witness: "ÄÖÜäöüABCDabcd" → "äöüäöüabcdabcd", and the uppercase
mirror "äöüäöüabcdabcd" → "ÄÖÜÄÖÜABCDABCD". -/
theorem c4_witness :
    make_utf8_umlauts_lowercase testBuf = .ok (lowercaseSpec testBuf) ∧
    lowercaseSpec testBuf = testLower ∧
    uppercaseSpec testLower = testUpper :=
  ⟨(c4_case_folds_rewrite testBuf (by decide) (by decide)).1, by decide,
    by decide⟩

/-- Claim C5, counterexample to the unrestricted statement: the empty buffer
is valid, yet the combined lowercase transliteration panics on it. -/
theorem c5_counterexample_empty :
    ¬ (make_utf8_umlauts_to_lowercase_ascii [] = .ok []) := by decide

/-- Claim C5 (amended to nonempty buffers of usize-representable length):
on every nonempty valid buffer, `make_utf8_umlauts_to_lowercase_ascii`
replaces each umlaut pair by its lowercase digraph regardless of source case
(ä,Ä→ae ö,Ö→oe ü,Ü→ue ß→ss) and ASCII-lowercases every other byte, the
final byte included, per `toLowerAsciiSpec`. -/
theorem c5_to_lowercase_ascii (s : List Nat) (hne : s ≠ [])
    (hus : s.length < USIZE) (hv : validA s = true) :
    make_utf8_umlauts_to_lowercase_ascii s = .ok (toLowerAsciiSpec s) :=
  make_toLowerAscii_eq hne (le_of_lt hus) hv

/-- Claim C5 witness: "ÄÖÜäöüABCDabcd" → "aeoeueaeoeueabcdabcd". -/
theorem c5_witness :
    validA testBuf = true ∧
    make_utf8_umlauts_to_lowercase_ascii testBuf
      = .ok (toLowerAsciiSpec testBuf) ∧
    toLowerAsciiSpec testBuf = testLowerAscii :=
  ⟨by decide, c5_to_lowercase_ascii testBuf (by decide) (by decide)
    (by decide), by decide⟩

/-- Claim C6: on every buffer valid over ASCII plus the six case-pairable
umlauts (no ß), the combined lowercase transliteration equals
transliteration followed by the lowercase fold (on the empty buffer both
sides panic identically, so the equality of outcomes holds there too). -/
theorem c6_lower_ascii_compose (s : List Nat) (hus : s.length < USIZE)
    (hv : validNoSS s = true) :
    make_utf8_umlauts_to_lowercase_ascii s =
      RunResult.bind (make_utf8_umlauts_to_ascii s)
        make_utf8_umlauts_lowercase := by
  by_cases hne : s = []
  · subst hne
    decide
  · have hvA := validNoSS_validA hv
    rw [make_toLowerAscii_eq hne (le_of_lt hus) hvA,
      make_toAscii_eq hne (le_of_lt hus) hvA]
    show RunResult.ok (toLowerAsciiSpec s)
      = make_utf8_umlauts_lowercase (toAsciiSpec s)
    have hpos : 0 < s.length := List.length_pos.mpr hne
    have hta_ne : toAsciiSpec s ≠ [] := by
      intro hcon
      have hl := toAsciiSpec_length s
      rw [hcon] at hl
      simp at hl
      omega
    have hta_len : (toAsciiSpec s).length ≤ USIZE := by
      rw [toAsciiSpec_length]
      omega
    rw [make_lowercase_eq hta_ne hta_len,
      lowercaseSpec_of_allAscii (toAsciiSpec s).length _ le_rfl
        (toAsciiSpec_allAscii s.length s le_rfl hvA),
      toLowerAsciiSpec_eq_map s.length s le_rfl hvA]

/-- Claim C6 witness at the crate's test vector (no ß present). -/
theorem c6_witness :
    validNoSS testBuf = true ∧
    make_utf8_umlauts_to_lowercase_ascii testBuf =
      RunResult.bind (make_utf8_umlauts_to_ascii testBuf)
        make_utf8_umlauts_lowercase :=
  ⟨by decide, c6_lower_ascii_compose testBuf (by decide) (by decide)⟩

/-- Claim C7: both case folds are idempotent on every buffer (any contents;
on the empty buffer both runs panic, and the sequenced outcome equals the
single-run outcome). -/
theorem c7_case_folds_idempotent (s : List Nat) (hus : s.length < USIZE) :
    RunResult.bind (make_utf8_umlauts_lowercase s) make_utf8_umlauts_lowercase
      = make_utf8_umlauts_lowercase s ∧
    RunResult.bind (make_utf8_umlauts_uppercase s) make_utf8_umlauts_uppercase
      = make_utf8_umlauts_uppercase s := by
  constructor
  · by_cases hne : s = []
    · subst hne
      decide
    · rw [make_lowercase_eq hne (le_of_lt hus)]
      show make_utf8_umlauts_lowercase (lowercaseSpec s)
        = RunResult.ok (lowercaseSpec s)
      have hpos : 0 < s.length := List.length_pos.mpr hne
      have hne2 : lowercaseSpec s ≠ [] := by
        intro hcon
        have hl := lowercaseSpec_length s
        rw [hcon] at hl
        simp at hl
        omega
      rw [make_lowercase_eq hne2 (by rw [lowercaseSpec_length]; omega),
        lowercaseSpec_idem]
  · by_cases hne : s = []
    · subst hne
      decide
    · rw [make_uppercase_eq hne (le_of_lt hus)]
      show make_utf8_umlauts_uppercase (uppercaseSpec s)
        = RunResult.ok (uppercaseSpec s)
      have hpos : 0 < s.length := List.length_pos.mpr hne
      have hne2 : uppercaseSpec s ≠ [] := by
        intro hcon
        have hl := uppercaseSpec_length s
        rw [hcon] at hl
        simp at hl
        omega
      rw [make_uppercase_eq hne2 (by rw [uppercaseSpec_length]; omega),
        uppercaseSpec_idem]

/-- Claim C7 witness at the crate's test vector. -/
theorem c7_witness :
    RunResult.bind (make_utf8_umlauts_lowercase testBuf)
        make_utf8_umlauts_lowercase
      = make_utf8_umlauts_lowercase testBuf ∧
    RunResult.bind (make_utf8_umlauts_uppercase testBuf)
        make_utf8_umlauts_uppercase
      = make_utf8_umlauts_uppercase testBuf :=
  c7_case_folds_idempotent testBuf (by decide)

/-- Claim C8: for supported inputs the buffer after any of the five
operations is still valid UTF-8 (folds take inputs without ß, since
uppercase ß is unsupported; transliterations allow ß). -/
theorem c8_outputs_valid_utf8 (s : List Nat) (hus : s.length < USIZE) :
    (validNoSS s = true → ∀ t, make_utf8_umlauts_lowercase s = .ok t →
      validUtf8 t = true) ∧
    (validNoSS s = true → ∀ t, make_utf8_umlauts_uppercase s = .ok t →
      validUtf8 t = true) ∧
    (validA s = true → ∀ t, make_utf8_umlauts_to_ascii s = .ok t →
      validUtf8 t = true) ∧
    (validA s = true → ∀ t, make_utf8_umlauts_to_lowercase_ascii s = .ok t →
      validUtf8 t = true) ∧
    (validA s = true → ∀ t, make_utf8_umlauts_to_uppercase_ascii s = .ok t →
      validUtf8 t = true) := by
  refine ⟨?_, ?_, ?_, ?_, ?_⟩
  · intro hv t h
    by_cases hne : s = []
    · subst hne
      rw [show make_utf8_umlauts_lowercase [] = .fail from by decide] at h
      exact absurd h (by simp)
    · rw [make_lowercase_eq hne (le_of_lt hus)] at h
      injection h with h2
      rw [← h2]
      exact validA_validUtf8 (lowercaseSpec s).length _ le_rfl
        (lowercaseSpec_valid s.length s le_rfl hv)
  · intro hv t h
    by_cases hne : s = []
    · subst hne
      rw [show make_utf8_umlauts_uppercase [] = .fail from by decide] at h
      exact absurd h (by simp)
    · rw [make_uppercase_eq hne (le_of_lt hus)] at h
      injection h with h2
      rw [← h2]
      exact validA_validUtf8 (uppercaseSpec s).length _ le_rfl
        (uppercaseSpec_valid s.length s le_rfl hv)
  · intro hv t h
    by_cases hne : s = []
    · subst hne
      rw [show make_utf8_umlauts_to_ascii [] = .fail from by decide] at h
      exact absurd h (by simp)
    · rw [make_toAscii_eq hne (le_of_lt hus) hv] at h
      injection h with h2
      rw [← h2]
      exact validA_validUtf8 (toAsciiSpec s).length _ le_rfl
        (allAscii_validA _ (toAsciiSpec_allAscii s.length s le_rfl hv))
  · intro hv t h
    by_cases hne : s = []
    · subst hne
      rw [show make_utf8_umlauts_to_lowercase_ascii [] = .fail
        from by decide] at h
      exact absurd h (by simp)
    · rw [make_toLowerAscii_eq hne (le_of_lt hus) hv] at h
      injection h with h2
      rw [← h2]
      exact validA_validUtf8 (toLowerAsciiSpec s).length _ le_rfl
        (allAscii_validA _
          (fun x hx => (toLowerAsciiSpec_bytes s.length s le_rfl hv x hx).1))
  · intro hv t h
    by_cases hne : s = []
    · subst hne
      rw [show make_utf8_umlauts_to_uppercase_ascii [] = .fail
        from by decide] at h
      exact absurd h (by simp)
    · rw [make_toUpperAscii_eq hne (le_of_lt hus) hv] at h
      injection h with h2
      rw [← h2]
      exact validA_validUtf8 (toUpperAsciiSpec s).length _ le_rfl
        (allAscii_validA _
          (fun x hx => (toUpperAsciiSpec_bytes s.length s le_rfl hv x hx).1))

/-- Claim C8 witness: the lowercase fold's output on the crate's test vector
is valid UTF-8. -/
theorem c8_witness : validUtf8 testLower = true :=
  (c8_outputs_valid_utf8 testBuf (by decide)).1 (by decide) testLower
    (by decide)

/-- Claim C9: no operation changes the buffer's byte length — whenever a run
completes, the resulting buffer has the input's length, for every input
buffer of any contents. -/
theorem c9_length_preserved (s : List Nat) :
    (∀ t, make_utf8_umlauts_lowercase s = .ok t → t.length = s.length) ∧
    (∀ t, make_utf8_umlauts_uppercase s = .ok t → t.length = s.length) ∧
    (∀ t, make_utf8_umlauts_to_ascii s = .ok t → t.length = s.length) ∧
    (∀ t, make_utf8_umlauts_to_lowercase_ascii s = .ok t →
      t.length = s.length) ∧
    (∀ t, make_utf8_umlauts_to_uppercase_ascii s = .ok t →
      t.length = s.length) :=
  ⟨fun _ h => make_scan_length h,
   fun _ h => make_scan_length h,
   fun _ h => toAsciiLoop_length _ _ _ _ h,
   fun _ h => make_scan_length h,
   fun _ h => make_scan_length h⟩

/-- Claim C9 witness: uppercasing `"a"` keeps length 1. -/
theorem c9_witness : ([65] : List Nat).length = ([97] : List Nat).length :=
  (c9_length_preserved [97]).2.1 [65] (by decide)

/-- Claim C10: on valid buffers, after any of the three transliterations the
buffer is pure ASCII (every byte below `0x80`, so no `0xc3` lead byte
remains), and re-applying the same operation leaves the buffer unchanged. -/
theorem c10_transliteration_ascii (s : List Nat) (hus : s.length < USIZE)
    (hv : validA s = true) :
    (∀ t, make_utf8_umlauts_to_ascii s = .ok t →
      (∀ x ∈ t, x < 0x80) ∧ make_utf8_umlauts_to_ascii t = .ok t) ∧
    (∀ t, make_utf8_umlauts_to_lowercase_ascii s = .ok t →
      (∀ x ∈ t, x < 0x80) ∧ make_utf8_umlauts_to_lowercase_ascii t = .ok t) ∧
    (∀ t, make_utf8_umlauts_to_uppercase_ascii s = .ok t →
      (∀ x ∈ t, x < 0x80) ∧ make_utf8_umlauts_to_uppercase_ascii t = .ok t)
    := by
  refine ⟨?_, ?_, ?_⟩
  · intro t h
    by_cases hne : s = []
    · subst hne
      rw [show make_utf8_umlauts_to_ascii [] = .fail from by decide] at h
      exact absurd h (by simp)
    · rw [make_toAscii_eq hne (le_of_lt hus) hv] at h
      injection h with h2
      subst h2
      have ha := toAsciiSpec_allAscii s.length s le_rfl hv
      have hpos : 0 < s.length := List.length_pos.mpr hne
      have hne2 : toAsciiSpec s ≠ [] := by
        intro hcon
        have hl := toAsciiSpec_length s
        rw [hcon] at hl
        simp at hl
        omega
      exact ⟨ha, make_toAscii_fixed ha hne2 (by rw [toAsciiSpec_length]; omega)⟩
  · intro t h
    by_cases hne : s = []
    · subst hne
      rw [show make_utf8_umlauts_to_lowercase_ascii [] = .fail
        from by decide] at h
      exact absurd h (by simp)
    · rw [make_toLowerAscii_eq hne (le_of_lt hus) hv] at h
      injection h with h2
      subst h2
      have hb := toLowerAsciiSpec_bytes s.length s le_rfl hv
      have ha : ∀ x ∈ toLowerAsciiSpec s, x < 0x80 := fun x hx => (hb x hx).1
      have hpos : 0 < s.length := List.length_pos.mpr hne
      have hne2 : toLowerAsciiSpec s ≠ [] := by
        intro hcon
        have hl := toLowerAsciiSpec_length s
        rw [hcon] at hl
        simp at hl
        omega
      refine ⟨ha, ?_⟩
      rw [make_toLowerAscii_eq hne2 (by rw [toLowerAsciiSpec_length]; omega)
        (allAscii_validA _ ha),
        toLowerAsciiSpec_fixed (toLowerAsciiSpec s).length _ le_rfl hb]
  · intro t h
    by_cases hne : s = []
    · subst hne
      rw [show make_utf8_umlauts_to_uppercase_ascii [] = .fail
        from by decide] at h
      exact absurd h (by simp)
    · rw [make_toUpperAscii_eq hne (le_of_lt hus) hv] at h
      injection h with h2
      subst h2
      have hb := toUpperAsciiSpec_bytes s.length s le_rfl hv
      have ha : ∀ x ∈ toUpperAsciiSpec s, x < 0x80 := fun x hx => (hb x hx).1
      have hpos : 0 < s.length := List.length_pos.mpr hne
      have hne2 : toUpperAsciiSpec s ≠ [] := by
        intro hcon
        have hl := toUpperAsciiSpec_length s
        rw [hcon] at hl
        simp at hl
        omega
      refine ⟨ha, ?_⟩
      rw [make_toUpperAscii_eq hne2 (by rw [toUpperAsciiSpec_length]; omega)
        (allAscii_validA _ ha),
        toUpperAsciiSpec_fixed (toUpperAsciiSpec s).length _ le_rfl hb]

/-- Claim C10 witness: on the crate's test vector, the transliteration
output is pure ASCII and re-applying is the identity. -/
theorem c10_witness :
    (∀ x ∈ testAscii, x < 0x80) ∧
    make_utf8_umlauts_to_ascii testAscii = .ok testAscii :=
  (c10_transliteration_ascii testBuf (by decide) (by decide)).1 testAscii
    (by decide)

end Umlauts
